import Mathlib

/-!
Verification of the spinner animation utility (spinner.py).

Python strings are modelled as `List Char` (`PyStr`), a sequence of code
points; `'\n'` is the line terminator used by the program's data, and the
model fixes it as the sole line-break character.  All definitions are
executable and are translated from the source functions they embed.
-/

set_option maxHeartbeats 1000000

/-! ### Definitions: the embedded program -/

abbrev PyStr := List Char

/-- The `String.data` view of a literal, used to write `PyStr` constants. -/
def toPy (s : String) : PyStr := s.data

/-- The whitespace class `[ \t]` used by `textwrap.dedent`'s regexes. -/
def wsChar (c : Char) : Bool := c == ' ' || c == '\t'

/-- Python `line.ljust(width)`: right-pad with spaces up to `width`. -/
def ljust (w : Nat) (l : PyStr) : PyStr := l ++ List.replicate (w - l.length) ' '

/-- Python `" " * w`. -/
def spaces (w : Nat) : PyStr := List.replicate w ' '

/-- Split on `'\n'`; always returns a non-empty list of newline-free chunks,
matching Python `text.split("\n")`. -/
def splitNl : PyStr → List PyStr
  | [] => [[]]
  | c :: s =>
    if c = '\n' then [] :: splitNl s
    else
      match splitNl s with
      | [] => [[c]]
      | l :: ls => (c :: l) :: ls

/-- Python `"\n".join(lines)`. -/
def joinNl : List PyStr → PyStr
  | [] => []
  | [l] => l
  | l :: ls => l ++ '\n' :: joinNl ls

/-- Python `text.strip("\n")` (strip `'\n'` characters from both ends). -/
def stripNl (s : PyStr) : PyStr :=
  ((s.dropWhile (fun c => c = '\n')).reverse.dropWhile (fun c => c = '\n')).reverse

/-- Python `text.splitlines()` with `'\n'` as the line terminator: like
`split("\n")` except that an empty input gives `[]` and a trailing newline
does not produce a final empty chunk. -/
def pySplitlines (s : PyStr) : List PyStr :=
  if s = [] then []
  else if s.getLast? = some '\n' then (splitNl s).dropLast
  else splitNl s

/-- Drop leading and trailing empty lines from a line list. -/
def trimEmpty (B : List PyStr) : List PyStr :=
  (((B.dropWhile List.isEmpty).reverse).dropWhile List.isEmpty).reverse

/-- A line consisting of one or more `[ \t]` characters
(the `^[ \t]+$` regex of `textwrap.dedent`). -/
def wsOnly (l : PyStr) : Bool := !l.isEmpty && l.all wsChar

/-- A line containing at least one non-`[ \t]` character. -/
def nonBlank (l : PyStr) : Bool := l.any (fun c => !wsChar c)

/-- Step 1 of `textwrap.dedent`: normalize whitespace-only lines to empty. -/
def blankWs (ls : List PyStr) : List PyStr := ls.map (fun l => if wsOnly l then [] else l)

/-- The `[ \t]*` leading-whitespace run of a line. -/
def indentOf (l : PyStr) : PyStr := l.takeWhile wsChar

/-- Longest common prefix of two character lists. -/
def lcp : PyStr → PyStr → PyStr
  | a :: as, b :: bs => if a = b then a :: lcp as bs else []
  | _, _ => []

/-- The margin of `textwrap.dedent`: the longest common prefix of the leading
whitespace of all lines that contain a non-whitespace character. -/
def marginOf (ls : List PyStr) : PyStr :=
  match (ls.filter nonBlank).map indentOf with
  | [] => []
  | i :: is => is.foldl lcp i

/-- Boolean prefix test on character lists. -/
def pfx : PyStr → PyStr → Bool
  | [], _ => true
  | _ :: _, [] => false
  | a :: as, b :: bs => a == b && pfx as bs

/-- Remove the margin from the front of a line when it is present
(the `(?m)^margin` substitution of `textwrap.dedent`). -/
def dropMargin (m l : PyStr) : PyStr := if pfx m l then l.drop m.length else l

/-- Line-level core of `textwrap.dedent`: blank the whitespace-only lines,
compute the margin, remove it from every line. -/
def dedentCore (ls : List PyStr) : List PyStr :=
  let b := blankWs ls
  b.map (dropMargin (marginOf b))

/-- Model of `textwrap.dedent(block)`: split on newlines, dedent, rejoin. -/
def dedentText (block : PyStr) : PyStr := joinNl (dedentCore (splitNl block))

/-- Model of `_dedent_lines` from spinner.py:
`textwrap.dedent(block).strip("\n").splitlines()`. -/
def _dedent_lines (block : PyStr) : List PyStr :=
  pySplitlines (stripNl (dedentText block))

/-- Maximum of a list of naturals (all values are lengths, hence `≥ 0`,
so folding from `0` agrees with Python's `max` on non-empty input). -/
def maxNat (l : List Nat) : Nat := l.foldr Nat.max 0

/-- The per-block line lists `split_frames` of `_normalize_frames`. -/
def splitFrames (raw : List PyStr) : List (List PyStr) := raw.map _dedent_lines

/-- The quantity `width = max(len(line) for frame in split_frames for line in frame)`. -/
def normWidth (raw : List PyStr) : Nat :=
  maxNat (((splitFrames raw).flatten).map List.length)

/-- The quantity `height = max(len(frame) for frame in split_frames)`. -/
def normHeight (raw : List PyStr) : Nat :=
  maxNat ((splitFrames raw).map List.length)

/-- The body of `_normalize_frames`'s per-frame loop: pad each line to
`width`, then append blank `width`-space lines up to `height`. -/
def padFrame (w h : Nat) (frame : List PyStr) : List PyStr :=
  frame.map (ljust w) ++ List.replicate (h - frame.length) (spaces w)

/-- Model of `_normalize_frames` from spinner.py.  `none` models the `ValueError`
raised by `max()` on an empty generator, which happens exactly when no
dedented frame contributes any line. -/
def _normalize_frames (raw : List PyStr) : Option (List PyStr) :=
  let split := splitFrames raw
  match split.flatten with
  | [] => none
  | _ :: _ =>
    some (split.map (fun frame => joinNl (padFrame (normWidth raw) (normHeight raw) frame)))

/-- Decimal digit characters, as produced by Python's integer formatting. -/
def digitChar : Nat → Char
  | 0 => '0'
  | 1 => '1'
  | 2 => '2'
  | 3 => '3'
  | 4 => '4'
  | 5 => '5'
  | 6 => '6'
  | 7 => '7'
  | 8 => '8'
  | _ => '9'

/-- Decimal representation of a natural number, matching Python `str(n)`
for non-negative `n`. -/
def natToDigits (n : Nat) : PyStr :=
  if n = 0 then ['0'] else ((Nat.digits 10 n).map digitChar).reverse

/-- The `PhraseGenerator` state: two word pools, a tag and a counter. -/
structure PhraseGenerator where
  intros : List PyStr
  claims : List PyStr
  tag : PyStr
  counter : Nat

/-- Model of `PhraseGenerator.__next__`: `idx` is the counter before the call, the
intro and claim are selected from `idx`, the counter is incremented, and the
formatted phrase embeds the incremented counter (`self.counter = idx + 1`).
List indexing is total here (`getD`); the source indexes with `%` of the
pool length, which is in range whenever the pools are non-empty, as the
validated constructor guarantees. -/
def PhraseGenerator.next (g : PhraseGenerator) : PyStr × PhraseGenerator :=
  (g.intros.getD (g.counter % g.intros.length) [] ++ toPy " " ++
    g.claims.getD ((g.counter / g.intros.length) % g.claims.length) [] ++ toPy " (" ++
    g.tag ++ toPy " #" ++ natToDigits (g.counter + 1) ++ toPy ")",
   { g with counter := g.counter + 1 })

/-- Generator state after `n` calls to `next`. -/
def PhraseGenerator.afterCalls (g : PhraseGenerator) : Nat → PhraseGenerator
  | 0 => g
  | n + 1 => (g.afterCalls n).next.2

/-- The `n`-th production of a generator, 1-based. -/
def PhraseGenerator.production (g : PhraseGenerator) (n : Nat) : PyStr :=
  (g.afterCalls (n - 1)).next.1

/-- The digits of the rolling marker, recovered from the end of a phrase:
drop the final `')'`, then read the maximal digit run backwards. -/
def counterDigits (s : PyStr) : PyStr :=
  ((s.reverse.drop 1).takeWhile Char.isDigit).reverse

/-- Observable effects of `animate`: writes to the sink, flushes of the
sink, and calls to the injected sleep function.  The delay value passed to
the sleep function is the Spinner's float delay; it is opaque here, only
the call itself is recorded. -/
inductive Ev
  | write (s : PyStr)
  | flush
  | sleep
deriving DecidableEq

/-- The escape character `ESC` = `"\033"`. -/
def ESC : PyStr := [ '\x1b' ]

def MOVE_HOME : PyStr := ESC ++ toPy "[H"

def CLEAR_SCREEN : PyStr := ESC ++ toPy "[2J"

def CLEAR_AND_HOME : PyStr := CLEAR_SCREEN ++ MOVE_HOME

/-- The fixed instructional line written after every frame. -/
def pressMsg : PyStr := toPy "Press Ctrl+C to stop.\n"

/-- The farewell text written by the KeyboardInterrupt handler. -/
def stoppedLine : PyStr := toPy "Stopped. Thanks for spinning!"

def goodbyeMsg : PyStr := CLEAR_AND_HOME ++ stoppedLine ++ [ '\n' ]

/-- The frame produced by `itertools.cycle(self.frames)` at loop index
`index` (defined for non-empty frame lists). -/
def frameAt (frames : List PyStr) (index : Nat) : PyStr :=
  frames.getD (index % frames.length) []

/-- One pass of `animate`'s loop body at `index`: the clear-and-frame write,
the instructional write, the flush, and the sleep call, in source order. -/
def loopBody (frames : List PyStr) (index : Nat) : List Ev :=
  [Ev.write (CLEAR_AND_HOME ++ frameAt frames index ++ [ '\n' ]),
   Ev.write pressMsg, Ev.flush, Ev.sleep]

/-- The loop of `animate` with iteration cap `n` (a Python `int`) and a
sleep function that never raises, from loop index `index` on: the body runs
first, and only afterwards is `index + 1 >= iterations` checked. -/
def animateFrom (frames : List PyStr) (n : Int) (index : Nat) : List Ev :=
  loopBody frames index ++
    (if _h : (index : Int) + 1 ≥ n then [] else animateFrom frames n (index + 1))
termination_by (n - index).toNat
decreasing_by
  simp only [not_le] at _h
  omega

/-- Trace of `animate(spinner, iterations=n, writer=recording, sleep_fn=non-raising)`
as its event trace.  `itertools.cycle` of an empty sequence is an empty
iterator, so nothing at all happens for an empty frame list (the Spinner
constructor rules that out). -/
def animate (frames : List PyStr) (n : Int) : List Ev :=
  if frames.isEmpty then [] else animateFrom frames n 0

/-- Trace of `animate` when the sleep function raises KeyboardInterrupt on its
`j`-th call (0-based) and the cap is `n?` (`none` for an unbounded loop).
The `except KeyboardInterrupt:` handler around the loop writes the
clear-and-goodbye message; the trace is the function's return value, so the
interrupt is not re-raised.  If the cap stops the loop before the `j`-th
sleep call, the interrupt never fires. -/
def animateIntrFrom (frames : List PyStr) (n? : Option Int) (index : Nat) :
    Nat → List Ev
  | 0 => loopBody frames index ++ [Ev.write goodbyeMsg]
  | j + 1 =>
    loopBody frames index ++
      (match n? with
       | some n => if (index : Int) + 1 ≥ n then []
           else animateIntrFrom frames n? (index + 1) j
       | none => animateIntrFrom frames n? (index + 1) j)

def animateIntr (frames : List PyStr) (n? : Option Int) (j : Nat) : List Ev :=
  if frames.isEmpty then [] else animateIntrFrom frames n? 0 j

/-- Number of events matching `p` in a trace. -/
def countP (p : Ev → Bool) (tr : List Ev) : Nat := (tr.filter p).length

def isClearWrite : Ev → Bool
  | Ev.write s => pfx CLEAR_AND_HOME s
  | _ => false

def isPressWrite : Ev → Bool
  | Ev.write s => s == pressMsg
  | _ => false

def isSleep : Ev → Bool
  | Ev.sleep => true
  | _ => false

def isGoodbyeWrite : Ev → Bool
  | Ev.write s => s == goodbyeMsg
  | _ => false

/-- Whether an `Except` result is a raised validation error. -/
def isErrE {ε α : Type} : Except ε α → Bool
  | Except.error _ => true
  | Except.ok _ => false

/-- Validation in `Spinner.__init__`: `if not frames: raise ValueError(...)`.
The result carries the validated frame list; the float delay is opaque and
not modelled. -/
def Spinner.init (frames : List PyStr) : Except PyStr (List PyStr) :=
  if frames.isEmpty then Except.error (toPy "Spinner requires at least one frame.")
  else Except.ok frames

/-- Model of `PhraseGenerator.__init__`: stores the pools and the tag, raises a
`ValueError` if either pool is empty, and starts the counter at 0. -/
def PhraseGenerator.init (intros claims : List PyStr) (tag : PyStr) :
    Except PyStr PhraseGenerator :=
  if intros.isEmpty || claims.isEmpty then
    Except.error (toPy "PhraseGenerator needs intros and claims.")
  else Except.ok (PhraseGenerator.mk intros claims tag 0)

/-- Python `str.strip()` whitespace characters (the ASCII ones). -/
def pyWs (c : Char) : Bool :=
  c == ' ' || c == '\t' || c == '\n' || c == '\r' || c == '\x0b' || c == '\x0c'

/-- Python `value.strip()`. -/
def pyStrip (s : PyStr) : PyStr :=
  ((s.dropWhile pyWs).reverse.dropWhile pyWs).reverse

/-- Python `value.lower()` (the ASCII fragment of Python's `str.lower`; the
recognized choice words are ASCII). -/
def pyLower (s : PyStr) : PyStr := s.map Char.toLower

/-- Model of `parse_choice` from spinner.py.  The error payload approximates the
`f"Unknown choice: {value!r}"` message without `repr` quoting; only the
fact that a `ValueError` is raised matters to callers. -/
def parse_choice (value : PyStr) : Except PyStr PyStr :=
  let lowered := pyLower (pyStrip value)
  if lowered = toPy "chip" ∨ lowered = toPy "c" then Except.ok (toPy "chip")
  else if lowered = toPy "cockroach" ∨ lowered = toPy "roach" ∨ lowered = toPy "r" then
    Except.ok (toPy "cockroach")
  else Except.error (toPy "Unknown choice: " ++ value)

/-! ### Theorems -/

theorem pfx_iff (a b : PyStr) : pfx a b = true ↔ ∃ t, b = a ++ t := by
  induction a generalizing b with
  | nil => simp [pfx]
  | cons x xs ih =>
    cases b with
    | nil => simp [pfx]
    | cons y ys =>
      simp only [pfx, Bool.and_eq_true, beq_iff_eq, ih, List.cons_append]
      constructor
      · rintro ⟨rfl, t, rfl⟩; exact ⟨t, rfl⟩
      · rintro ⟨t, h⟩
        injection h with h1 h2
        exact ⟨h1.symm, t, h2⟩

theorem pfx_refl (a : PyStr) : pfx a a = true := by
  rw [pfx_iff]; exact ⟨[], by simp⟩

theorem pfx_len {a b : PyStr} (h : pfx a b = true) : a.length ≤ b.length := by
  rw [pfx_iff] at h
  obtain ⟨t, rfl⟩ := h
  simp

theorem pfx_lcp_left (a b : PyStr) : pfx (lcp a b) a = true := by
  induction a generalizing b with
  | nil => cases b <;> simp [lcp, pfx]
  | cons x xs ih =>
    cases b with
    | nil => simp [lcp, pfx]
    | cons y ys =>
      by_cases hxy : x = y
      · simp [lcp, hxy, pfx, ih]
      · simp [lcp, hxy, pfx]

theorem pfx_lcp_right (a b : PyStr) : pfx (lcp a b) b = true := by
  induction a generalizing b with
  | nil => cases b <;> simp [lcp, pfx]
  | cons x xs ih =>
    cases b with
    | nil => simp [lcp, pfx]
    | cons y ys =>
      by_cases hxy : x = y
      · simp [lcp, hxy, pfx, ih]
      · simp [lcp, hxy, pfx]

theorem pfx_lcp_of {p a b : PyStr} (ha : pfx p a = true) (hb : pfx p b = true) :
    pfx p (lcp a b) = true := by
  induction p generalizing a b with
  | nil => simp [pfx]
  | cons x xs ih =>
    cases a with
    | nil => simp [pfx] at ha
    | cons y ys =>
      cases b with
      | nil => simp [pfx] at hb
      | cons z zs =>
        simp only [pfx, Bool.and_eq_true, beq_iff_eq] at ha hb
        obtain ⟨rfl, ha'⟩ := ha
        obtain ⟨rfl, hb'⟩ := hb
        simp [lcp, pfx, ih ha' hb']

/-- Every element of an `lcp` is shared by both arguments, so an `lcp` of
whitespace-only lists is whitespace-only. -/
theorem lcp_all {p : Char → Bool} {a b : PyStr} (ha : a.all p = true) :
    (lcp a b).all p = true := by
  have h := pfx_lcp_left a b
  rw [pfx_iff] at h
  obtain ⟨t, ht⟩ := h
  rw [ht, List.all_append, Bool.and_eq_true] at ha
  exact ha.1

theorem pfx_trans {a b c : PyStr} (h1 : pfx a b = true) (h2 : pfx b c = true) :
    pfx a c = true := by
  rw [pfx_iff] at h1 h2 ⊢
  obtain ⟨t, rfl⟩ := h1
  obtain ⟨u, rfl⟩ := h2
  exact ⟨t ++ u, by rw [List.append_assoc]⟩

/-- The fold computing the dedent margin: prefix of every participating indent. -/
theorem foldl_lcp_pfx (i : PyStr) (is : List PyStr) :
    ∀ x ∈ i :: is, pfx (is.foldl lcp i) x = true := by
  induction is generalizing i with
  | nil =>
    intro x hx
    simp only [List.mem_cons, List.not_mem_nil, or_false] at hx
    subst hx
    exact pfx_refl x
  | cons j js ih =>
    intro x hx
    simp only [List.foldl_cons]
    have hmem := ih (lcp i j)
    simp only [List.mem_cons] at hx
    rcases hx with rfl | rfl | hx
    · exact pfx_trans (hmem (lcp x j) (List.mem_cons_self _ _)) (pfx_lcp_left x j)
    · exact pfx_trans (hmem (lcp i x) (List.mem_cons_self _ _)) (pfx_lcp_right i x)
    · exact hmem x (List.mem_cons_of_mem _ hx)

/-- The fold computing the dedent margin is the greatest common prefix. -/
theorem pfx_foldl_lcp {p : PyStr} (i : PyStr) (is : List PyStr)
    (h : ∀ x ∈ i :: is, pfx p x = true) : pfx p (is.foldl lcp i) = true := by
  induction is generalizing i with
  | nil => exact h i (List.mem_cons_self _ _)
  | cons j js ih =>
    simp only [List.foldl_cons]
    refine ih (lcp i j) ?_
    intro x hx
    simp only [List.mem_cons] at hx
    rcases hx with hx | hx
    · subst hx
      exact pfx_lcp_of (h i (by simp)) (h j (by simp))
    · exact h x (by simp [hx])

theorem pfx_all {p : Char → Bool} {a b : PyStr} (hp : pfx a b = true)
    (hb : b.all p = true) : a.all p = true := by
  rw [pfx_iff] at hp
  obtain ⟨t, rfl⟩ := hp
  rw [List.all_append, Bool.and_eq_true] at hb
  exact hb.1

theorem pfx_append_same (c : PyStr) {a b : PyStr} (h : pfx a b = true) :
    pfx (c ++ a) (c ++ b) = true := by
  rw [pfx_iff] at h ⊢
  obtain ⟨t, rfl⟩ := h
  exact ⟨t, by rw [List.append_assoc]⟩

/-- The margin is a prefix of the indent of every non-blank line. -/
theorem marginOf_pfx {ls : List PyStr} {l : PyStr} (hl : l ∈ ls)
    (hnb : nonBlank l = true) : pfx (marginOf ls) (indentOf l) = true := by
  unfold marginOf
  have hmem : indentOf l ∈ (ls.filter nonBlank).map indentOf :=
    List.mem_map_of_mem _ (List.mem_filter.2 ⟨hl, hnb⟩)
  rcases hlist : (ls.filter nonBlank).map indentOf with _ | ⟨i, is⟩
  · rw [hlist] at hmem; simp at hmem
  · rw [hlist] at hmem
    exact foldl_lcp_pfx i is _ hmem

/-- The margin is the greatest common prefix of the non-blank indents. -/
theorem pfx_marginOf {p : PyStr} {ls : List PyStr}
    (hne : ls.filter nonBlank ≠ [])
    (h : ∀ l ∈ ls, nonBlank l = true → pfx p (indentOf l) = true) :
    pfx p (marginOf ls) = true := by
  unfold marginOf
  rcases hlist : (ls.filter nonBlank).map indentOf with _ | ⟨i, is⟩
  · exact absurd (List.map_eq_nil_iff.1 hlist) hne
  · refine pfx_foldl_lcp i is ?_
    intro x hx
    rw [← hlist] at hx
    obtain ⟨l, hlmem, rfl⟩ := List.mem_map.1 hx
    have := List.mem_filter.1 hlmem
    exact h l this.1 this.2

/-- The margin consists of whitespace characters only. -/
theorem marginOf_ws (ls : List PyStr) : (marginOf ls).all wsChar = true := by
  unfold marginOf
  rcases hlist : (ls.filter nonBlank).map indentOf with _ | ⟨i, is⟩
  · rfl
  · have hi : i.all wsChar = true := by
      have : i ∈ (ls.filter nonBlank).map indentOf := by rw [hlist]; simp
      obtain ⟨l, _, rfl⟩ := List.mem_map.1 this
      rw [List.all_eq_true]
      intro c hc
      exact List.mem_takeWhile_imp hc
    exact pfx_all (foldl_lcp_pfx i is i (List.mem_cons_self _ _)) hi

/-- Dropping an all-whitespace margin does not change blankness. -/
theorem nonBlank_dropMargin {m : PyStr} (hm : m.all wsChar = true) (l : PyStr) :
    nonBlank (dropMargin m l) = nonBlank l := by
  unfold dropMargin
  by_cases hp : pfx m l = true
  · obtain ⟨t, rfl⟩ := (pfx_iff _ _).1 hp
    rw [if_pos hp, List.drop_left]
    unfold nonBlank
    rw [List.any_append]
    have : m.any (fun c => !wsChar c) = false := by
      rw [List.any_eq_false]
      intro c hc
      rw [List.all_eq_true] at hm
      simp [hm c hc]
    rw [this, Bool.false_or]
  · rw [if_neg hp]

/-- Right after `dropWhile p`, `takeWhile p` yields nothing. -/
theorem takeWhile_dropWhile_nil (p : Char → Bool) (l : PyStr) :
    (l.dropWhile p).takeWhile p = [] := by
  induction l with
  | nil => rfl
  | cons c s ih =>
    by_cases hc : p c = true
    · rw [List.dropWhile_cons_of_pos hc]; exact ih
    · rw [List.dropWhile_cons_of_neg hc, List.takeWhile_cons_of_neg hc]

theorem takeWhile_append_of_all {p : Char → Bool} {a : PyStr} (c : PyStr)
    (ha : a.all p = true) : (a ++ c).takeWhile p = a ++ c.takeWhile p := by
  induction a with
  | nil => rfl
  | cons x xs ih =>
    rw [List.all_cons, Bool.and_eq_true] at ha
    rw [List.cons_append, List.takeWhile_cons_of_pos ha.1, ih ha.2, List.cons_append]

/-- Effect of margin removal on the indent of a line whose indent extends
the margin. -/
theorem indentOf_dropMargin {m l : PyStr} (hp : pfx m (indentOf l) = true) :
    indentOf (dropMargin m l) = (indentOf l).drop m.length := by
  have hpl : pfx m l = true := by
    refine pfx_trans hp ?_
    rw [pfx_iff]
    exact ⟨l.dropWhile wsChar, (List.takeWhile_append_dropWhile wsChar l).symm⟩
  obtain ⟨i', hi'⟩ := (pfx_iff _ _).1 hp
  have hi'ws : i'.all wsChar = true := by
    have hall : (indentOf l).all wsChar = true := by
      rw [List.all_eq_true]
      intro c hc
      exact List.mem_takeWhile_imp hc
    rw [hi', List.all_append, Bool.and_eq_true] at hall
    exact hall.2
  have hl : l = m ++ (i' ++ l.dropWhile wsChar) := by
    conv_lhs => rw [← List.takeWhile_append_dropWhile (p := wsChar) (l := l)]
    rw [show l.takeWhile wsChar = indentOf l from rfl, hi', List.append_assoc]
  have hdrop : l.drop m.length = i' ++ l.dropWhile wsChar := by
    conv_lhs => rw [hl]
    exact List.drop_left _ _
  unfold dropMargin
  rw [if_pos hpl, hdrop, hi', List.drop_left]
  unfold indentOf
  rw [takeWhile_append_of_all _ hi'ws, takeWhile_dropWhile_nil, List.append_nil]

/-- Dedenting removes the entire common margin: the margin of the result
is empty.  This is the heart of idempotence of frame normalization. -/
theorem marginOf_dedented_nil (B : List PyStr) :
    marginOf (B.map (dropMargin (marginOf B))) = [] := by
  set m := marginOf B with hm
  set D := B.map (dropMargin m) with hD
  rcases hcase : marginOf D with _ | ⟨c, cs⟩
  · rfl
  · exfalso
    have hfilter : D.filter nonBlank = (B.filter nonBlank).map (dropMargin m) := by
      rw [hD, List.filter_map]
      congr 1
      apply List.filter_congr
      intro l _
      exact nonBlank_dropMargin (marginOf_ws B) l
    have hfne : B.filter nonBlank ≠ [] := by
      intro hnil
      have : D.filter nonBlank = [] := by rw [hfilter, hnil]; rfl
      have : marginOf D = [] := by
        unfold marginOf
        rw [this]
        rfl
      rw [hcase] at this
      exact List.cons_ne_nil _ _ this
    -- `m ++ marginOf D` is a common prefix of every non-blank indent of `B`.
    have hbig : pfx (m ++ marginOf D) (marginOf B) = true := by
      refine pfx_marginOf hfne ?_
      intro l hl hnb
      have h1 : pfx m (indentOf l) = true := marginOf_pfx hl hnb
      have h2 : pfx (marginOf D) (indentOf (dropMargin m l)) = true := by
        refine marginOf_pfx ?_ ?_
        · exact List.mem_map_of_mem _ hl
        · rw [nonBlank_dropMargin (marginOf_ws B) l]; exact hnb
      rw [indentOf_dropMargin h1] at h2
      obtain ⟨t, ht⟩ := (pfx_iff _ _).1 h1
      have : indentOf l = m ++ (indentOf l).drop m.length := by
        rw [ht, List.drop_left]
      rw [this]
      exact pfx_append_same m h2
    have hlen := pfx_len hbig
    rw [← hm, List.length_append, hcase] at hlen
    simp at hlen

theorem splitNl_ne_nil (s : PyStr) : splitNl s ≠ [] := by
  induction s with
  | nil => simp [splitNl]
  | cons c s ih =>
    unfold splitNl
    by_cases hc : c = '\n'
    · simp [hc]
    · rcases h : splitNl s with _ | ⟨l, ls⟩
      · simp [hc, h]
      · simp [hc, h]

theorem mem_splitNl_no_nl {s : PyStr} {l : PyStr} (hl : l ∈ splitNl s) : '\n' ∉ l := by
  induction s generalizing l with
  | nil =>
    simp only [splitNl, List.mem_singleton] at hl
    subst hl
    simp
  | cons c s ih =>
    unfold splitNl at hl
    by_cases hc : c = '\n'
    · rw [if_pos hc] at hl
      rcases List.mem_cons.1 hl with rfl | h
      · simp
      · exact ih h
    · rw [if_neg hc] at hl
      rcases hsplit : splitNl s with _ | ⟨x, xs⟩
      · exact absurd hsplit (splitNl_ne_nil s)
      · rw [hsplit] at hl
        rcases List.mem_cons.1 hl with rfl | h
        · intro hmem
          rcases List.mem_cons.1 hmem with h1 | h1
          · exact hc h1.symm
          · exact ih (hsplit ▸ List.mem_cons_self x xs) h1
        · exact ih (hsplit ▸ List.mem_cons_of_mem x h)

theorem splitNl_no_nl {l : PyStr} (hl : '\n' ∉ l) : splitNl l = [l] := by
  induction l with
  | nil => rfl
  | cons c s ih =>
    unfold splitNl
    have hc : ¬ c = '\n' := fun h => hl (h ▸ List.mem_cons_self c s)
    rw [if_neg hc, ih (fun h => hl (List.mem_cons_of_mem c h))]

theorem splitNl_cons_of_ne {c : Char} (t : PyStr) (hc : ¬ c = '\n') :
    splitNl (c :: t) = (c :: (splitNl t).headI) :: (splitNl t).tail := by
  rcases h : splitNl t with _ | ⟨l, ls⟩
  · exact absurd h (splitNl_ne_nil t)
  · simp [splitNl, hc, h]

theorem splitNl_append_nl {l : PyStr} (rest : PyStr) (hl : '\n' ∉ l) :
    splitNl (l ++ '\n' :: rest) = l :: splitNl rest := by
  induction l with
  | nil => simp [splitNl]
  | cons c s ih =>
    have hc : ¬ c = '\n' := fun h => hl (h ▸ List.mem_cons_self c s)
    have ih' := ih (fun h => hl (List.mem_cons_of_mem c h))
    rw [List.cons_append, splitNl_cons_of_ne _ hc, ih']
    simp

theorem splitNl_joinNl {B : List PyStr} (hne : B ≠ [])
    (hfree : ∀ l ∈ B, '\n' ∉ l) : splitNl (joinNl B) = B := by
  induction B with
  | nil => exact absurd rfl hne
  | cons l ls ih =>
    cases ls with
    | nil =>
      rw [show joinNl [l] = l from rfl]
      exact splitNl_no_nl (hfree l (List.mem_cons_self _ _))
    | cons l' ls' =>
      rw [show joinNl (l :: l' :: ls') = l ++ '\n' :: joinNl (l' :: ls') from rfl]
      rw [splitNl_append_nl _ (hfree l (List.mem_cons_self _ _))]
      rw [ih (List.cons_ne_nil _ _) (fun x hx => hfree x (List.mem_cons_of_mem l hx))]

theorem joinNl_append_single (A : List PyStr) (x : PyStr) (hA : A ≠ []) :
    joinNl (A ++ [x]) = joinNl A ++ '\n' :: x := by
  induction A with
  | nil => exact absurd rfl hA
  | cons a as ih =>
    cases as with
    | nil => rfl
    | cons a' as' =>
      rw [List.cons_append]
      rw [show joinNl (a :: (a' :: as' ++ [x])) = a ++ '\n' :: joinNl (a' :: as' ++ [x]) from rfl]
      rw [ih (List.cons_ne_nil _ _)]
      rw [show joinNl (a :: a' :: as') = a ++ '\n' :: joinNl (a' :: as') from rfl]
      simp [List.append_assoc]

theorem joinNl_rev (B : List PyStr) :
    (joinNl B).reverse = joinNl (B.reverse.map List.reverse) := by
  induction B with
  | nil => rfl
  | cons l ls ih =>
    cases ls with
    | nil => rfl
    | cons l' ls' =>
      have hA : (l' :: ls').reverse.map List.reverse ≠ [] := by simp
      rw [show joinNl (l :: l' :: ls') = l ++ '\n' :: joinNl (l' :: ls') from rfl]
      rw [show (l :: l' :: ls').reverse = (l' :: ls').reverse ++ [l] from by simp]
      rw [List.map_append]
      rw [show List.map List.reverse [l] = [l.reverse] from rfl]
      rw [joinNl_append_single _ _ hA, ← ih]
      simp

theorem dropWhile_isEmpty_map_rev (B : List PyStr) :
    (B.map List.reverse).dropWhile List.isEmpty = (B.dropWhile List.isEmpty).map List.reverse := by
  induction B with
  | nil => rfl
  | cons l ls ih =>
    by_cases hl : l.isEmpty = true
    · have hrev : l.reverse.isEmpty = true := by
        rcases l with _ | ⟨c, s⟩
        · rfl
        · simp [List.isEmpty] at hl
      rw [List.map_cons, List.dropWhile_cons_of_pos hrev, List.dropWhile_cons_of_pos hl, ih]
    · have hrev : ¬ l.reverse.isEmpty = true := by
        rcases l with _ | ⟨c, s⟩
        · exact absurd rfl hl
        · simp
      rw [List.map_cons, List.dropWhile_cons_of_neg hrev, List.dropWhile_cons_of_neg hl,
        List.map_cons]

theorem dropNl_joinNl {B : List PyStr} (hfree : ∀ l ∈ B, '\n' ∉ l) :
    (joinNl B).dropWhile (fun c => c = '\n') = joinNl (B.dropWhile List.isEmpty) := by
  induction B with
  | nil => rfl
  | cons l ls ih =>
    rcases l with _ | ⟨c, s⟩
    · rcases ls with _ | ⟨l', ls'⟩
      · rfl
      · rw [show joinNl ([] :: l' :: ls') = '\n' :: joinNl (l' :: ls') from rfl]
        rw [List.dropWhile_cons_of_pos (by simp)]
        rw [List.dropWhile_cons_of_pos (by rfl)]
        exact ih (fun x hx => hfree x (List.mem_cons_of_mem _ hx))
    · have hc : ¬ c = '\n' :=
        fun h => hfree (c :: s) (List.mem_cons_self _ _) (h ▸ List.mem_cons_self c s)
      have hstop : ¬ (decide (c = '\n') = true) := by simp [hc]
      rcases ls with _ | ⟨l', ls'⟩
      · rw [show joinNl [c :: s] = c :: s from rfl]
        rw [List.dropWhile_cons_of_neg (by simpa using hc)]
        rw [List.dropWhile_cons_of_neg (by simp)]
        rfl
      · rw [show joinNl ((c :: s) :: l' :: ls') = c :: (s ++ '\n' :: joinNl (l' :: ls')) from by
          simp [joinNl]]
        rw [List.dropWhile_cons_of_neg (by simpa using hc)]
        rw [List.dropWhile_cons_of_neg (by simp)]
        simp [joinNl]

theorem stripNl_joinNl {B : List PyStr} (hfree : ∀ l ∈ B, '\n' ∉ l) :
    stripNl (joinNl B) = joinNl (trimEmpty B) := by
  unfold stripNl trimEmpty
  rw [dropNl_joinNl hfree]
  set B1 := B.dropWhile List.isEmpty with hB1
  have hfree1 : ∀ l ∈ B1, '\n' ∉ l := fun l hl =>
    hfree l ((List.dropWhile_sublist _).subset hl)
  rw [joinNl_rev B1]
  have hfree2 : ∀ l ∈ B1.reverse.map List.reverse, '\n' ∉ l := by
    intro l hl
    obtain ⟨x, hx, rfl⟩ := List.mem_map.1 hl
    intro hmem
    exact hfree1 x (List.mem_reverse.1 hx) (List.mem_reverse.1 hmem)
  rw [dropNl_joinNl hfree2, dropWhile_isEmpty_map_rev, joinNl_rev]
  congr 1
  simp

theorem head_dropWhile_isEmpty {B : List PyStr} {x : PyStr}
    (h : (B.dropWhile List.isEmpty).head? = some x) : x ≠ [] := by
  induction B with
  | nil => simp at h
  | cons l ls ih =>
    by_cases hl : l.isEmpty = true
    · rw [List.dropWhile_cons_of_pos hl] at h
      exact ih h
    · rw [List.dropWhile_cons_of_neg hl] at h
      simp only [List.head?_cons, Option.some_inj] at h
      subst h
      intro hnil
      exact hl (hnil ▸ rfl)

theorem getLast_dropWhile {p : PyStr → Bool} {B : List PyStr}
    (h : B.dropWhile p ≠ []) : (B.dropWhile p).getLast? = B.getLast? := by
  induction B with
  | nil => simp at h
  | cons l ls ih =>
    by_cases hl : p l = true
    · rw [List.dropWhile_cons_of_pos hl] at h ⊢
      have hls : ls ≠ [] := by
        intro hnil
        subst hnil
        exact h rfl
      rw [ih h]
      rcases ls with _ | ⟨l2, ls2⟩
      · exact absurd rfl hls
      · rw [List.getLast?_cons_cons]
    · rw [List.dropWhile_cons_of_neg hl]

theorem trimEmpty_getLast {B : List PyStr} {x : PyStr}
    (h : (trimEmpty B).getLast? = some x) : x ≠ [] := by
  unfold trimEmpty at h
  rw [List.getLast?_reverse] at h
  exact head_dropWhile_isEmpty h

theorem trimEmpty_head {B : List PyStr} {x : PyStr}
    (h : (trimEmpty B).head? = some x) : x ≠ [] := by
  unfold trimEmpty at h
  rw [List.head?_reverse] at h
  have hne : (((B.dropWhile List.isEmpty).reverse).dropWhile List.isEmpty) ≠ [] := by
    intro hnil
    rw [hnil] at h
    simp at h
  rw [getLast_dropWhile hne, List.getLast?_reverse] at h
  exact head_dropWhile_isEmpty h

theorem mem_trimEmpty {B : List PyStr} {x : PyStr} (h : x ∈ trimEmpty B) : x ∈ B := by
  unfold trimEmpty at h
  rw [List.mem_reverse] at h
  have h1 := (List.dropWhile_sublist _).subset h
  rw [List.mem_reverse] at h1
  exact (List.dropWhile_sublist _).subset h1

theorem joinNl_head? {l : PyStr} (ls : List PyStr) (hl : l ≠ []) :
    (joinNl (l :: ls)).head? = l.head? := by
  rcases l with _ | ⟨c, s⟩
  · exact absurd rfl hl
  · cases ls with
    | nil => rfl
    | cons l' ls' =>
      rw [show joinNl ((c :: s) :: l' :: ls') = (c :: s) ++ '\n' :: joinNl (l' :: ls') from rfl]
      rfl

theorem joinNl_ne_nil {l : PyStr} (ls : List PyStr) (hl : l ≠ []) :
    joinNl (l :: ls) ≠ [] := by
  intro hnil
  have := joinNl_head? ls hl
  rw [hnil] at this
  rcases l with _ | ⟨c, s⟩
  · exact hl rfl
  · simp at this

theorem joinNl_getLast?_ne_nl {T : List PyStr} (hfree : ∀ l ∈ T, '\n' ∉ l)
    (hlast : ∀ x, T.getLast? = some x → x ≠ []) (hne : T ≠ []) :
    ¬ (joinNl T).getLast? = some '\n' := by
  have hrev : (joinNl T).getLast? = (joinNl (T.reverse.map List.reverse)).head? := by
    rw [← List.head?_reverse, joinNl_rev]
  rcases hT : T.reverse with _ | ⟨t, rest⟩
  · exact absurd (by simpa using congrArg List.reverse hT) hne
  · have htmem : t ∈ T := by
      rw [← List.mem_reverse, hT]
      exact List.mem_cons_self _ _
    have htlast : t ≠ [] := by
      refine hlast t ?_
      rw [← List.head?_reverse, hT]
      rfl
    rw [hrev, hT, List.map_cons, joinNl_head? _ (by simpa using htlast)]
    intro hcon
    rcases ht : t.reverse with _ | ⟨c, cs⟩
    · exact htlast (by simpa using congrArg List.reverse ht)
    · rw [ht] at hcon
      simp only [List.head?_cons, Option.some_inj] at hcon
      subst hcon
      have : '\n' ∈ t := by
        rw [← List.mem_reverse, ht]
        exact List.mem_cons_self _ _
      exact hfree t htmem this

theorem pySplitlines_joinNl {T : List PyStr} (hfree : ∀ l ∈ T, '\n' ∉ l)
    (hhead : ∀ x, T.head? = some x → x ≠ [])
    (hlast : ∀ x, T.getLast? = some x → x ≠ []) :
    pySplitlines (joinNl T) = T := by
  rcases T with _ | ⟨l, ls⟩
  · rfl
  · have hl : l ≠ [] := hhead l rfl
    unfold pySplitlines
    rw [if_neg (joinNl_ne_nil ls hl)]
    rw [if_neg (joinNl_getLast?_ne_nl hfree hlast (List.cons_ne_nil _ _))]
    exact splitNl_joinNl (List.cons_ne_nil _ _) hfree

theorem dedentCore_free {L : List PyStr} (hfree : ∀ l ∈ L, '\n' ∉ l) :
    ∀ l ∈ dedentCore L, '\n' ∉ l := by
  intro l hl
  unfold dedentCore at hl
  obtain ⟨b, hb, rfl⟩ := List.mem_map.1 hl
  unfold blankWs at hb
  obtain ⟨x, hx, rfl⟩ := List.mem_map.1 hb
  by_cases hws : wsOnly x = true
  · rw [if_pos hws]
    unfold dropMargin
    split <;> simp
  · rw [if_neg hws]
    unfold dropMargin
    split
    · intro hmem
      exact hfree x hx (List.mem_of_mem_drop hmem)
    · exact hfree x hx

/-- Characterization of `_dedent_lines` in terms of the line-level pipeline: dedent the split
lines, then trim leading and trailing empty lines. -/
theorem dedent_lines_eq (block : PyStr) :
    _dedent_lines block = trimEmpty (dedentCore (splitNl block)) := by
  unfold _dedent_lines dedentText
  have hfree : ∀ l ∈ dedentCore (splitNl block), '\n' ∉ l :=
    dedentCore_free (fun l hl => mem_splitNl_no_nl hl)
  rw [stripNl_joinNl hfree]
  refine pySplitlines_joinNl ?_ ?_ ?_
  · intro l hl
    exact hfree l (mem_trimEmpty hl)
  · intro x hx
    exact trimEmpty_head hx
  · intro x hx
    exact trimEmpty_getLast hx

theorem dedent_lines_free {block : PyStr} : ∀ l ∈ _dedent_lines block, '\n' ∉ l := by
  intro l hl
  rw [dedent_lines_eq] at hl
  exact dedentCore_free (fun x hx => mem_splitNl_no_nl hx) l (mem_trimEmpty hl)

theorem dropMargin_nil (m : PyStr) : dropMargin m [] = [] := by
  unfold dropMargin
  split <;> simp

theorem dedentCore_blank_or {L : List PyStr} :
    ∀ l ∈ dedentCore L, l = [] ∨ nonBlank l = true := by
  intro l hl
  unfold dedentCore at hl
  obtain ⟨y, hy, rfl⟩ := List.mem_map.1 hl
  unfold blankWs at hy
  obtain ⟨x, _, rfl⟩ := List.mem_map.1 hy
  by_cases hws : wsOnly x = true
  · rw [if_pos hws, dropMargin_nil]
    exact Or.inl rfl
  · rw [if_neg hws]
    rcases x with _ | ⟨c, s⟩
    · rw [dropMargin_nil]; exact Or.inl rfl
    · right
      have hnb : nonBlank (c :: s) = true := by
        unfold wsOnly at hws
        simp only [List.isEmpty_cons, Bool.not_false, Bool.true_and] at hws
        unfold nonBlank
        rw [List.any_eq_true]
        rw [Bool.not_eq_true] at hws
        rw [List.all_eq_false] at hws
        obtain ⟨c', hc', hcw⟩ := hws
        exact ⟨c', hc', by simp [hcw]⟩
      rw [nonBlank_dropMargin (marginOf_ws _) _]
      exact hnb

theorem dedent_lines_blank_or {block : PyStr} :
    ∀ l ∈ _dedent_lines block, l = [] ∨ nonBlank l = true := by
  intro l hl
  rw [dedent_lines_eq] at hl
  exact dedentCore_blank_or l (mem_trimEmpty hl)

theorem filter_nonBlank_dropWhile_isEmpty (B : List PyStr) :
    (B.dropWhile List.isEmpty).filter nonBlank = B.filter nonBlank := by
  induction B with
  | nil => rfl
  | cons l ls ih =>
    by_cases hl : l.isEmpty = true
    · have hnil : l = [] := by
        rcases l with _ | _
        · rfl
        · simp at hl
      subst hnil
      rw [List.dropWhile_cons_of_pos (by rfl), ih]
      rw [List.filter_cons_of_neg (by decide)]
    · rw [List.dropWhile_cons_of_neg hl]

theorem filter_nonBlank_trimEmpty (B : List PyStr) :
    (trimEmpty B).filter nonBlank = B.filter nonBlank := by
  unfold trimEmpty
  rw [List.filter_reverse, filter_nonBlank_dropWhile_isEmpty, List.filter_reverse,
    List.reverse_reverse, filter_nonBlank_dropWhile_isEmpty]

theorem marginOf_eq_of_filter {A B : List PyStr}
    (h : A.filter nonBlank = B.filter nonBlank) : marginOf A = marginOf B := by
  unfold marginOf
  rw [h]

/-- The dedented lines of a block have no margin left. -/
theorem marginOf_dedent_lines (block : PyStr) : marginOf (_dedent_lines block) = [] := by
  rw [dedent_lines_eq]
  rw [marginOf_eq_of_filter (filter_nonBlank_trimEmpty _)]
  exact marginOf_dedented_nil (blankWs (splitNl block))

theorem le_maxNat {l : List Nat} {x : Nat} (hx : x ∈ l) : x ≤ maxNat l := by
  induction l with
  | nil => simp at hx
  | cons y ys ih =>
    unfold maxNat at ih ⊢
    rw [List.foldr_cons]
    rcases List.mem_cons.1 hx with rfl | h
    · exact Nat.le_max_left _ _
    · exact le_trans (ih h) (Nat.le_max_right _ _)

theorem maxNat_le {l : List Nat} {b : Nat} (h : ∀ x ∈ l, x ≤ b) : maxNat l ≤ b := by
  induction l with
  | nil => exact Nat.zero_le b
  | cons y ys ih =>
    unfold maxNat at ih ⊢
    rw [List.foldr_cons]
    exact Nat.max_le.2 ⟨h y (List.mem_cons_self _ _),
      ih (fun x hx => h x (List.mem_cons_of_mem _ hx))⟩

theorem ljust_length {w : Nat} {l : PyStr} (h : l.length ≤ w) :
    (ljust w l).length = w := by
  unfold ljust
  rw [List.length_append, List.length_replicate]
  omega

theorem ljust_of_length {w : Nat} {l : PyStr} (h : w ≤ l.length) : ljust w l = l := by
  unfold ljust
  rw [Nat.sub_eq_zero_of_le h]
  simp

theorem ljust_nil (w : Nat) : ljust w [] = spaces w := by
  unfold ljust spaces
  simp

theorem ljust_free {w : Nat} {l : PyStr} (h : '\n' ∉ l) : '\n' ∉ ljust w l := by
  unfold ljust
  intro hmem
  rcases List.mem_append.1 hmem with h1 | h1
  · exact h h1
  · have := List.eq_of_mem_replicate h1
    simp at this

theorem nonBlank_ljust (w : Nat) (l : PyStr) : nonBlank (ljust w l) = nonBlank l := by
  unfold ljust nonBlank
  rw [List.any_append]
  have : (List.replicate (w - l.length) ' ').any (fun c => !wsChar c) = false := by
    rw [List.any_eq_false]
    intro c hc
    rw [List.eq_of_mem_replicate hc]
    simp [wsChar]
  rw [this, Bool.or_false]

theorem spaces_free (w : Nat) : '\n' ∉ spaces w := by
  unfold spaces
  intro h
  have := List.eq_of_mem_replicate h
  simp at this

theorem padFrame_length (w h : Nat) (frame : List PyStr) :
    (padFrame w h frame).length = max h frame.length := by
  unfold padFrame
  rw [List.length_append, List.length_map, List.length_replicate]
  omega

theorem padFrame_line_length {w h : Nat} {frame : List PyStr}
    (hlen : ∀ x ∈ frame, x.length ≤ w) :
    ∀ l ∈ padFrame w h frame, l.length = w := by
  intro l hl
  rcases List.mem_append.1 hl with h1 | h1
  · obtain ⟨x, hx, rfl⟩ := List.mem_map.1 h1
    exact ljust_length (hlen x hx)
  · rw [List.eq_of_mem_replicate h1]
    exact List.length_replicate _ _

theorem padFrame_free {w h : Nat} {frame : List PyStr}
    (hfree : ∀ x ∈ frame, '\n' ∉ x) :
    ∀ l ∈ padFrame w h frame, '\n' ∉ l := by
  intro l hl
  rcases List.mem_append.1 hl with h1 | h1
  · obtain ⟨x, hx, rfl⟩ := List.mem_map.1 h1
    exact ljust_free (hfree x hx)
  · rw [List.eq_of_mem_replicate h1]
    exact spaces_free w

theorem mem_of_head? {α : Type} {l : List α} {x : α} (h : l.head? = some x) : x ∈ l := by
  rcases l with _ | ⟨a, as⟩
  · simp at h
  · simp only [List.head?_cons, Option.some_inj] at h
    subst h
    exact List.mem_cons_self _ _

theorem mem_of_getLast? {α : Type} {l : List α} {x : α} (h : l.getLast? = some x) :
    x ∈ l := by
  rw [← List.head?_reverse] at h
  rw [← List.mem_reverse]
  exact mem_of_head? h

/-- Rebuilding a padded frame from its joined text recovers the padded lines,
as long as every line is padded to a positive common width. -/
theorem pySplitlines_joinNl_padFrame {w h : Nat} {frame : List PyStr}
    (hlen : ∀ x ∈ frame, x.length ≤ w) (hfree : ∀ x ∈ frame, '\n' ∉ x)
    (hw : 1 ≤ w) :
    pySplitlines (joinNl (padFrame w h frame)) = padFrame w h frame := by
  refine pySplitlines_joinNl (padFrame_free hfree) ?_ ?_
  · intro x hx
    have := padFrame_line_length hlen x (mem_of_head? hx)
    intro hnil
    rw [hnil] at this
    simp at this
    omega
  · intro x hx
    have := padFrame_line_length hlen x (mem_of_getLast? hx)
    intro hnil
    rw [hnil] at this
    simp at this
    omega

theorem dedent_lines_head_ne {block x : PyStr}
    (h : (_dedent_lines block).head? = some x) : x ≠ [] := by
  rw [dedent_lines_eq] at h
  exact trimEmpty_head h

theorem flatten_splitFrames_nil_iff (raw : List PyStr) :
    (splitFrames raw).flatten = [] ↔ ∀ b ∈ raw, _dedent_lines b = [] := by
  unfold splitFrames
  rw [List.flatten_eq_nil_iff]
  constructor
  · intro h b hb
    exact h _ (List.mem_map_of_mem _ hb)
  · intro h x hx
    obtain ⟨b, hb, rfl⟩ := List.mem_map.1 hx
    exact h b hb

theorem normalize_none_iff (raw : List PyStr) :
    _normalize_frames raw = none ↔ ∀ b ∈ raw, _dedent_lines b = [] := by
  rw [← flatten_splitFrames_nil_iff]
  unfold _normalize_frames
  rcases h : (splitFrames raw).flatten with _ | ⟨x, xs⟩
  · simp [h]
  · simp [h]

theorem normalize_eq_some {raw : List PyStr} (h : (splitFrames raw).flatten ≠ []) :
    _normalize_frames raw = some ((splitFrames raw).map
      (fun frame => joinNl (padFrame (normWidth raw) (normHeight raw) frame))) := by
  unfold _normalize_frames
  rcases hf : (splitFrames raw).flatten with _ | ⟨x, xs⟩
  · exact absurd hf h
  · simp only [hf]

theorem length_le_normWidth {raw : List PyStr} {frame : List PyStr} {l : PyStr}
    (hf : frame ∈ splitFrames raw) (hl : l ∈ frame) : l.length ≤ normWidth raw := by
  unfold normWidth
  exact le_maxNat (List.mem_map_of_mem _ (List.mem_flatten.2 ⟨frame, hf, hl⟩))

theorem length_le_normHeight {raw : List PyStr} {frame : List PyStr}
    (hf : frame ∈ splitFrames raw) : frame.length ≤ normHeight raw := by
  unfold normHeight
  exact le_maxNat (List.mem_map_of_mem _ hf)

theorem mem_splitFrames {raw : List PyStr} {frame : List PyStr}
    (hf : frame ∈ splitFrames raw) : ∃ b ∈ raw, _dedent_lines b = frame := by
  unfold splitFrames at hf
  obtain ⟨b, hb, rfl⟩ := List.mem_map.1 hf
  exact ⟨b, hb, rfl⟩

theorem one_le_normWidth {raw : List PyStr} {b : PyStr} (hb : b ∈ raw)
    (hne : _dedent_lines b ≠ []) : 1 ≤ normWidth raw := by
  rcases hhead : (_dedent_lines b).head? with _ | x
  · rw [List.head?_eq_none_iff] at hhead
    exact absurd hhead hne
  · have hx : x ∈ _dedent_lines b := mem_of_head? hhead
    have hxe : x ≠ [] := dedent_lines_head_ne hhead
    have hlen : 1 ≤ x.length := by
      rcases x with _ | _
      · exact absurd rfl hxe
      · simp
    calc 1 ≤ x.length := hlen
    _ ≤ normWidth raw := length_le_normWidth (List.mem_map_of_mem _ hb) hx

/-- C1: for a non-empty list of raw frame blocks in which every block still
has at least one line after dedent and blank-line stripping,
`_normalize_frames` returns one string per input frame; every output frame
has exactly `normHeight` lines, every line has exactly length `normWidth`
(the maximum line length across all frames), and each output frame's lines
are exactly the input frame's lines right-padded with spaces, followed by
lines of `normWidth` spaces up to `normHeight`. -/
theorem C1_normalize_shape (raw : List PyStr) (hraw : raw ≠ [])
    (hne : ∀ b ∈ raw, _dedent_lines b ≠ []) :
    ∃ out, _normalize_frames raw = some out ∧
      out.length = raw.length ∧
      (∀ s ∈ out, (pySplitlines s).length = normHeight raw ∧
        ∀ l ∈ pySplitlines s, l.length = normWidth raw) ∧
      (∀ i, (_ : i < raw.length) →
        pySplitlines (out.getD i []) =
          padFrame (normWidth raw) (normHeight raw) (_dedent_lines (raw.getD i []))) := by
  rcases hraw2 : raw with _ | ⟨b0, rest⟩
  · exact absurd hraw2 hraw
  rw [← hraw2]
  have hb0 : b0 ∈ raw := by rw [hraw2]; exact List.mem_cons_self _ _
  have hb0ne : _dedent_lines b0 ≠ [] := hne b0 hb0
  have hw : 1 ≤ normWidth raw := one_le_normWidth hb0 hb0ne
  have hflat : (splitFrames raw).flatten ≠ [] := by
    intro hall
    exact hb0ne ((flatten_splitFrames_nil_iff raw).1 hall b0 hb0)
  refine ⟨_, normalize_eq_some hflat, ?_, ?_, ?_⟩
  · rw [List.length_map]
    unfold splitFrames
    rw [List.length_map]
  · intro s hs
    obtain ⟨frame, hfmem, rfl⟩ := List.mem_map.1 hs
    have hlen : ∀ x ∈ frame, x.length ≤ normWidth raw :=
      fun x hx => length_le_normWidth hfmem hx
    have hfree : ∀ x ∈ frame, '\n' ∉ x := by
      obtain ⟨b, _, rfl⟩ := mem_splitFrames hfmem
      exact fun x hx => dedent_lines_free x hx
    rw [pySplitlines_joinNl_padFrame hlen hfree hw]
    refine ⟨?_, padFrame_line_length hlen⟩
    rw [padFrame_length]
    exact Nat.max_eq_left (length_le_normHeight hfmem)
  · intro i hi
    have hi1 : i < (splitFrames raw).length := by
      unfold splitFrames
      rw [List.length_map]
      exact hi
    have hi2 : i < ((splitFrames raw).map
        (fun frame => joinNl (padFrame (normWidth raw) (normHeight raw) frame))).length := by
      rw [List.length_map]
      exact hi1
    rw [List.getD_eq_getElem _ _ hi2, List.getD_eq_getElem _ _ hi, List.getElem_map]
    have hget : (splitFrames raw)[i] = _dedent_lines raw[i] := by
      unfold splitFrames
      rw [List.getElem_map]
    have hfmem : (splitFrames raw)[i] ∈ splitFrames raw := List.getElem_mem _
    have hlen : ∀ x ∈ (splitFrames raw)[i], x.length ≤ normWidth raw :=
      fun x hx => length_le_normWidth hfmem hx
    have hfree : ∀ x ∈ (splitFrames raw)[i], '\n' ∉ x := by
      rw [hget]
      exact fun x hx => dedent_lines_free x hx
    rw [pySplitlines_joinNl_padFrame hlen hfree hw, hget]

/-- C1 witness: a concrete two-frame input evaluated through the theorem. -/
theorem C1_witness :
    ∃ out, _normalize_frames [toPy "ab\ncd", toPy "x"] = some out ∧
      out.length = 2 ∧
      (∀ s ∈ out, (pySplitlines s).length = normHeight [toPy "ab\ncd", toPy "x"] ∧
        ∀ l ∈ pySplitlines s, l.length = normWidth [toPy "ab\ncd", toPy "x"]) ∧
      (∀ i, (_ : i < 2) →
        pySplitlines (out.getD i []) =
          padFrame (normWidth [toPy "ab\ncd", toPy "x"])
            (normHeight [toPy "ab\ncd", toPy "x"])
            (_dedent_lines ([toPy "ab\ncd", toPy "x"].getD i []))) :=
  C1_normalize_shape [toPy "ab\ncd", toPy "x"] (by decide) (by decide)

/-- C2 counterexample: a block with zero lines after dedent does not make
`_normalize_frames` fail when another block is non-empty; the claimed
validation error does not occur. -/
theorem C2_counterexample :
    _dedent_lines (toPy "") = [] ∧
    _normalize_frames [toPy "a", toPy ""] = some [toPy "a", toPy " "] := by
  constructor
  · rfl
  · rfl

/-- C2 (amended): `_normalize_frames` fails with a validation error iff
there are no lines at all — the input list is empty or every block has zero
lines after dedent and blank-line stripping.  A single empty block among
non-empty ones is padded to blank lines instead of failing. -/
theorem C2_amended_error_iff (raw : List PyStr) :
    _normalize_frames raw = none ↔ ∀ b ∈ raw, _dedent_lines b = [] :=
  normalize_none_iff raw

theorem wsOnly_spaces {w : Nat} (hw : 1 ≤ w) : wsOnly (spaces w) = true := by
  unfold wsOnly spaces
  rcases w with _ | w'
  · omega
  · rw [Bool.and_eq_true]
    constructor
    · rw [List.replicate_succ]
      simp
    · rw [List.all_eq_true]
      intro c hc
      rw [List.eq_of_mem_replicate hc]
      rfl

theorem nonBlank_wsOnly {l : PyStr} (h : nonBlank l = true) : wsOnly l = false := by
  unfold nonBlank at h
  rw [List.any_eq_true] at h
  obtain ⟨c, hc, hcw⟩ := h
  unfold wsOnly
  rw [Bool.and_eq_false_iff]
  right
  rw [List.all_eq_false]
  exact ⟨c, hc, by simpa using hcw⟩

theorem ljust_ne_nil {w : Nat} {l : PyStr} (h : l ≠ []) : ljust w l ≠ [] := by
  unfold ljust
  intro hcon
  rw [List.append_eq_nil] at hcon
  exact h hcon.1

theorem w_le_ljust_length (w : Nat) (l : PyStr) : w ≤ (ljust w l).length := by
  unfold ljust
  rw [List.length_append, List.length_replicate]
  omega

theorem ljust_idem (w : Nat) (l : PyStr) : ljust w (ljust w l) = ljust w l :=
  ljust_of_length (w_le_ljust_length w l)

theorem dropWhile_ne_nil_of_nonBlank {l : PyStr} (h : nonBlank l = true) :
    l.dropWhile wsChar ≠ [] := by
  intro hcon
  rw [List.dropWhile_eq_nil_iff] at hcon
  unfold nonBlank at h
  rw [List.any_eq_true] at h
  obtain ⟨c, hc, hcw⟩ := h
  rw [Bool.not_eq_true'] at hcw
  exact absurd (hcon c hc) (by simp [hcw])

theorem takeWhile_append_stop {p : Char → Bool} {l : PyStr} (t : PyStr)
    (h : l.dropWhile p ≠ []) : (l ++ t).takeWhile p = l.takeWhile p := by
  induction l with
  | nil => exact absurd rfl h
  | cons c s ih =>
    by_cases hc : p c = true
    · rw [List.dropWhile_cons_of_pos hc] at h
      rw [List.cons_append, List.takeWhile_cons_of_pos hc, List.takeWhile_cons_of_pos hc,
        ih h]
    · rw [List.cons_append, List.takeWhile_cons_of_neg hc, List.takeWhile_cons_of_neg hc]

theorem indentOf_ljust {w : Nat} {l : PyStr} (h : nonBlank l = true) :
    indentOf (ljust w l) = indentOf l := by
  unfold indentOf ljust
  exact takeWhile_append_stop _ (dropWhile_ne_nil_of_nonBlank h)

theorem dropMargin_nil_left (l : PyStr) : dropMargin [] l = l := by
  unfold dropMargin
  rw [if_pos (by rfl)]
  rfl

theorem dedentCore_of_marginOf_nil {L : List PyStr} (h : marginOf (blankWs L) = []) :
    dedentCore L = blankWs L := by
  show (blankWs L).map (dropMargin (marginOf (blankWs L))) = blankWs L
  rw [h]
  have hcong : ∀ l ∈ blankWs L, dropMargin [] l = id l := fun l _ => dropMargin_nil_left l
  rw [List.map_congr_left hcong, List.map_id]

theorem dropWhile_isEmpty_replicate (k : Nat) :
    (List.replicate k ([] : PyStr)).dropWhile List.isEmpty = [] := by
  induction k with
  | zero => rfl
  | succ n ih => rw [List.replicate_succ, List.dropWhile_cons_of_pos (by rfl), ih]

theorem dropWhile_isEmpty_replicate_append (k : Nat) (X : List PyStr) :
    (List.replicate k ([] : PyStr) ++ X).dropWhile List.isEmpty =
      X.dropWhile List.isEmpty := by
  induction k with
  | zero => rfl
  | succ n ih =>
    rw [List.replicate_succ, List.cons_append, List.dropWhile_cons_of_pos (by rfl), ih]

theorem trimEmpty_replicate (k : Nat) : trimEmpty (List.replicate k ([] : PyStr)) = [] := by
  unfold trimEmpty
  rw [dropWhile_isEmpty_replicate]
  rfl

theorem trimEmpty_append_replicate {A : List PyStr} (k : Nat)
    (hhead : ∀ x, A.head? = some x → x ≠ [])
    (hlast : ∀ x, A.getLast? = some x → x ≠ []) :
    trimEmpty (A ++ List.replicate k ([] : PyStr)) = A := by
  rcases A with _ | ⟨a, A'⟩
  · rw [List.nil_append]
    exact trimEmpty_replicate k
  · have ha : a ≠ [] := hhead a rfl
    have haE : ¬ a.isEmpty = true := by
      rcases a with _ | _
      · exact absurd rfl ha
      · simp
    unfold trimEmpty
    rw [List.cons_append, List.dropWhile_cons_of_neg haE, ← List.cons_append]
    rw [List.reverse_append, List.reverse_replicate, dropWhile_isEmpty_replicate_append]
    have hga : ((a :: A').reverse).head? = (a :: A').getLast? := List.head?_reverse _
    rcases hrev : (a :: A').reverse with _ | ⟨z, Z⟩
    · exact absurd (by simpa using congrArg List.reverse hrev) (List.cons_ne_nil a A')
    · have hz : z ≠ [] := by
        refine hlast z ?_
        rw [← hga, hrev]
        rfl
      have hzE : ¬ z.isEmpty = true := by
        rcases z with _ | _
        · exact absurd rfl hz
        · simp
      rw [List.dropWhile_cons_of_neg hzE, ← hrev, List.reverse_reverse]

/-- Blanking the whitespace-only lines of a padded frame: padded content
lines stay, padded empty lines and the appended space lines become empty. -/
theorem blankWs_padFrame {w h : Nat} {ls : List PyStr} (hw : 1 ≤ w)
    (hblank : ∀ l ∈ ls, l = [] ∨ nonBlank l = true) :
    blankWs (padFrame w h ls) =
      ls.map (fun l => if l = [] then ([] : PyStr) else ljust w l) ++
        List.replicate (h - ls.length) [] := by
  unfold blankWs padFrame
  rw [List.map_append]
  congr 1
  · rw [List.map_map]
    apply List.map_congr_left
    intro l hl
    rcases hblank l hl with rfl | hnb
    · simp only [Function.comp]
      rw [ljust_nil, if_pos (wsOnly_spaces hw)]
      simp
    · have hne : l ≠ [] := by
        intro hcon
        subst hcon
        simp [nonBlank] at hnb
      have hws : wsOnly (ljust w l) = false := by
        apply nonBlank_wsOnly
        rw [nonBlank_ljust]
        exact hnb
      simp only [Function.comp]
      rw [if_neg (by simp [hws]), if_neg hne]
  · rw [List.map_replicate, if_pos (wsOnly_spaces hw)]

theorem marginOf_eq_of_indents {A B : List PyStr}
    (h : (A.filter nonBlank).map indentOf = (B.filter nonBlank).map indentOf) :
    marginOf A = marginOf B := by
  unfold marginOf
  rw [h]

/-- Within a frame, padding lines to a common width and blanking empty lines
does not change the indents of the non-blank lines. -/
theorem indents_of_padded (w k : Nat) (ls : List PyStr) :
    (((ls.map (fun l => if l = [] then ([] : PyStr) else ljust w l) ++
        List.replicate k ([] : PyStr)).filter nonBlank).map indentOf) =
      ((ls.filter nonBlank).map indentOf) := by
  rw [List.filter_append]
  have hrep : (List.replicate k ([] : PyStr)).filter nonBlank = [] := by
    rw [List.filter_eq_nil_iff]
    intro a ha
    rw [List.eq_of_mem_replicate ha]
    simp [nonBlank]
  rw [hrep, List.append_nil, List.filter_map]
  have hcomp : List.filter (nonBlank ∘ fun l => if l = [] then ([] : PyStr) else ljust w l) ls
      = List.filter nonBlank ls := by
    apply List.filter_congr
    intro l _
    rcases eq_or_ne l [] with rfl | hne
    · rfl
    · simp only [Function.comp, if_neg hne]
      rw [nonBlank_ljust]
  rw [hcomp, List.map_map]
  apply List.map_congr_left
  intro l hl
  have hnb : nonBlank l = true := (List.mem_filter.1 hl).2
  have hne : l ≠ [] := by
    intro hcon
    subst hcon
    simp [nonBlank] at hnb
  simp only [Function.comp, if_neg hne]
  exact indentOf_ljust hnb

theorem marginOf_padded {w h : Nat} {ls : List PyStr} (hw : 1 ≤ w)
    (hblank : ∀ l ∈ ls, l = [] ∨ nonBlank l = true) :
    marginOf (blankWs (padFrame w h ls)) = marginOf ls := by
  rw [blankWs_padFrame hw hblank]
  exact marginOf_eq_of_indents (indents_of_padded w _ ls)

/-- Re-running `_dedent_lines` on a padded, joined frame recovers the frame's
lines with interior blanks re-blanked and non-blank lines still padded. -/
theorem dedent_of_padded {ls : List PyStr} {w h : Nat} (hw : 1 ≤ w) (hh : 1 ≤ h)
    (hfree : ∀ l ∈ ls, '\n' ∉ l)
    (hblank : ∀ l ∈ ls, l = [] ∨ nonBlank l = true)
    (hhead : ∀ x, ls.head? = some x → x ≠ [])
    (hlast : ∀ x, ls.getLast? = some x → x ≠ [])
    (hmargin : marginOf ls = []) :
    _dedent_lines (joinNl (padFrame w h ls)) =
      ls.map (fun l => if l = [] then ([] : PyStr) else ljust w l) := by
  have hPfree : ∀ l ∈ padFrame w h ls, '\n' ∉ l := padFrame_free hfree
  have hPne : padFrame w h ls ≠ [] := by
    intro hcon
    have := congrArg List.length hcon
    rw [padFrame_length] at this
    simp at this
    omega
  rw [dedent_lines_eq, splitNl_joinNl hPne hPfree]
  rw [dedentCore_of_marginOf_nil (by rw [marginOf_padded hw hblank]; exact hmargin)]
  rw [blankWs_padFrame hw hblank]
  apply trimEmpty_append_replicate
  · intro x hx
    rw [List.head?_map] at hx
    rcases hy : ls.head? with _ | y
    · rw [hy] at hx; simp at hx
    · rw [hy] at hx
      simp only [Option.map_some', Option.some_inj] at hx
      have hyne : y ≠ [] := hhead y hy
      rw [← hx, if_neg hyne]
      exact ljust_ne_nil hyne
  · intro x hx
    rw [List.getLast?_map] at hx
    rcases hy : ls.getLast? with _ | y
    · rw [hy] at hx; simp at hx
    · rw [hy] at hx
      simp only [Option.map_some', Option.some_inj] at hx
      have hyne : y ≠ [] := hlast y hy
      rw [← hx, if_neg hyne]
      exact ljust_ne_nil hyne

theorem dedent_lines_getLast_ne {block x : PyStr}
    (h : (_dedent_lines block).getLast? = some x) : x ≠ [] := by
  rw [dedent_lines_eq] at h
  exact trimEmpty_getLast h

theorem one_le_normHeight {raw : List PyStr} {b : PyStr} (hb : b ∈ raw)
    (hne : _dedent_lines b ≠ []) : 1 ≤ normHeight raw := by
  have hmem : _dedent_lines b ∈ splitFrames raw := List.mem_map_of_mem _ hb
  have h1 : 1 ≤ (_dedent_lines b).length := by
    rcases hd : _dedent_lines b with _ | _
    · exact absurd hd hne
    · simp
  exact le_trans h1 (length_le_normHeight hmem)

/-- C3: `_normalize_frames` is idempotent — whenever it succeeds, running it
again on its own output returns exactly the same list of frame strings. -/
theorem C3_normalize_idempotent (raw out : List PyStr)
    (h : _normalize_frames raw = some out) : _normalize_frames out = some out := by
  have hflat : (splitFrames raw).flatten ≠ [] := by
    intro hnil
    have : _normalize_frames raw = none := by
      rw [normalize_none_iff]
      exact (flatten_splitFrames_nil_iff raw).1 hnil
    rw [h] at this
    exact Option.noConfusion this
  have hout : out = (splitFrames raw).map
      (fun frame => joinNl (padFrame (normWidth raw) (normHeight raw) frame)) := by
    have := normalize_eq_some hflat
    rw [h] at this
    exact Option.some_inj.1 this
  -- a witness frame with at least one line
  have hbex : ∃ b ∈ raw, _dedent_lines b ≠ [] := by
    by_contra hcon
    push_neg at hcon
    refine hflat ((flatten_splitFrames_nil_iff raw).2 ?_)
    intro b hb
    exact hcon b hb
  obtain ⟨b0, hb0, hb0ne⟩ := hbex
  have hw : 1 ≤ normWidth raw := one_le_normWidth hb0 hb0ne
  have hh : 1 ≤ normHeight raw := one_le_normHeight hb0 hb0ne
  set w := normWidth raw with hwdef
  set ht := normHeight raw with htdef
  set f : PyStr → PyStr := fun l => if l = [] then [] else ljust w l with hfdef
  -- dedenting the padded output recovers the padded lines, re-blanked
  have hsf : splitFrames out = (splitFrames raw).map (fun frame => frame.map f) := by
    rw [hout]
    unfold splitFrames
    rw [List.map_map]
    apply List.map_congr_left
    intro frame hfmem
    simp only [Function.comp]
    obtain ⟨b, _, rfl⟩ := mem_splitFrames hfmem
    exact dedent_of_padded hw hh (fun l hl => dedent_lines_free l hl)
      (fun l hl => dedent_lines_blank_or l hl)
      (fun x hx => dedent_lines_head_ne hx)
      (fun x hx => dedent_lines_getLast_ne hx)
      (marginOf_dedent_lines b)
  -- a non-empty line of the original flattened lines
  have hlex : ∃ l ∈ (splitFrames raw).flatten, l ≠ [] := by
    rcases hd : _dedent_lines b0 with _ | ⟨x, xs⟩
    · exact absurd hd hb0ne
    · refine ⟨x, List.mem_flatten.2 ⟨_dedent_lines b0, List.mem_map_of_mem _ hb0,
        hd ▸ List.mem_cons_self _ _⟩, ?_⟩
      exact dedent_lines_head_ne (by rw [hd]; rfl)
  obtain ⟨l0, hl0mem, hl0ne⟩ := hlex
  have hl0frame : ∃ frame ∈ splitFrames raw, l0 ∈ frame := List.mem_flatten.1 hl0mem
  -- widths agree
  have hwidth : normWidth out = w := by
    apply Nat.le_antisymm
    · apply maxNat_le
      intro x hx
      obtain ⟨line, hline, rfl⟩ := List.mem_map.1 hx
      obtain ⟨frame2, hf2, hlf2⟩ := List.mem_flatten.1 hline
      rw [hsf] at hf2
      obtain ⟨frame, hfmem, rfl⟩ := List.mem_map.1 hf2
      obtain ⟨l, hl, rfl⟩ := List.mem_map.1 hlf2
      rcases eq_or_ne l [] with rfl | hne
      · rw [hfdef]
        simp
      · rw [hfdef]
        simp only [if_neg hne]
        rw [ljust_length (length_le_normWidth hfmem hl)]
    · obtain ⟨frame0, hf0, hl0f⟩ := hl0frame
      have hmem2 : f l0 ∈ (splitFrames out).flatten := by
        refine List.mem_flatten.2 ⟨frame0.map f, ?_, List.mem_map_of_mem _ hl0f⟩
        rw [hsf]
        exact List.mem_map_of_mem _ hf0
      have hlen : (f l0).length = w := by
        rw [hfdef]
        simp only [if_neg hl0ne]
        exact ljust_length (length_le_normWidth hf0 hl0f)
      calc w = (f l0).length := hlen.symm
      _ ≤ normWidth out := le_maxNat (List.mem_map_of_mem _ hmem2)
  -- heights agree
  have hheight : normHeight out = ht := by
    rw [htdef]
    unfold normHeight
    congr 1
    rw [hsf, List.map_map]
    apply List.map_congr_left
    intro frame _
    simp [Function.comp]
  -- the second run succeeds
  have hflat2 : (splitFrames out).flatten ≠ [] := by
    intro hnil
    rw [List.flatten_eq_nil_iff] at hnil
    obtain ⟨frame0, hf0, hl0f⟩ := hl0frame
    have hmem2 : frame0.map f ∈ splitFrames out := by
      rw [hsf]
      exact List.mem_map_of_mem _ hf0
    have := hnil _ hmem2
    rw [List.map_eq_nil_iff] at this
    rw [this] at hl0f
    simp at hl0f
  rw [normalize_eq_some hflat2, hwidth, hheight]
  congr 1
  rw [hsf, List.map_map]
  conv_rhs => rw [hout]
  apply List.map_congr_left
  intro frame hfmem
  simp only [Function.comp]
  congr 1
  unfold padFrame
  rw [List.length_map, List.map_map]
  congr 1
  apply List.map_congr_left
  intro l _
  simp only [Function.comp]
  rcases eq_or_ne l [] with rfl | hne
  · simp [hfdef]
  · rw [hfdef]
    simp only [if_neg hne]
    exact ljust_idem w l

/-- C3 witness: idempotence evaluated at a concrete valid input. -/
theorem C3_witness :
    _normalize_frames [toPy " a  \nbb b", toPy "x   \n    "] =
      some [toPy " a  \nbb b", toPy "x   \n    "] :=
  C3_normalize_idempotent [toPy " a\nbb b", toPy "x"]
    [toPy " a  \nbb b", toPy "x   \n    "] (by decide)

theorem digitChar_inj_fin : ∀ a b : Fin 10, digitChar a.val = digitChar b.val → a = b := by
  decide

theorem digitChar_inj {a b : Nat} (ha : a < 10) (hb : b < 10)
    (h : digitChar a = digitChar b) : a = b := by
  have := digitChar_inj_fin ⟨a, ha⟩ ⟨b, hb⟩ h
  exact congrArg Fin.val this

theorem digitChar_isDigit : ∀ d : Fin 10, (digitChar d.val).isDigit = true := by
  decide

theorem map_digitChar_inj {A B : List Nat} (hA : ∀ x ∈ A, x < 10)
    (hB : ∀ x ∈ B, x < 10) (h : A.map digitChar = B.map digitChar) : A = B := by
  induction A generalizing B with
  | nil =>
    cases B with
    | nil => rfl
    | cons b bs => simp at h
  | cons a as ih =>
    cases B with
    | nil => simp at h
    | cons b bs =>
      simp only [List.map_cons, List.cons.injEq] at h
      have hab : a = b := digitChar_inj (hA a (List.mem_cons_self _ _))
        (hB b (List.mem_cons_self _ _)) h.1
      rw [hab, ih (fun x hx => hA x (List.mem_cons_of_mem _ hx))
        (fun x hx => hB x (List.mem_cons_of_mem _ hx)) h.2]

theorem mem_digits_lt {n x : Nat} (hx : x ∈ Nat.digits 10 n) : x < 10 :=
  Nat.digits_lt_base (by norm_num) hx

theorem natToDigits_inj {a b : Nat} (h : natToDigits a = natToDigits b) : a = b := by
  unfold natToDigits at h
  by_cases ha : a = 0 <;> by_cases hb : b = 0
  · rw [ha, hb]
  · exfalso
    rw [if_pos ha, if_neg hb] at h
    replace h := h.symm
    rw [List.reverse_eq_iff] at h
    have hdig : Nat.digits 10 b = [0] := by
      refine map_digitChar_inj (fun x hx => mem_digits_lt hx) ?_ ?_
      · intro x hx
        simp only [List.mem_singleton] at hx
        omega
      · rw [h]
        rfl
    have := Nat.ofDigits_digits 10 b
    rw [hdig] at this
    simp [Nat.ofDigits] at this
    exact hb this.symm
  · exfalso
    rw [if_neg ha, if_pos hb] at h
    rw [List.reverse_eq_iff] at h
    have hdig : Nat.digits 10 a = [0] := by
      refine map_digitChar_inj (fun x hx => mem_digits_lt hx) ?_ ?_
      · intro x hx
        simp only [List.mem_singleton] at hx
        omega
      · rw [h]
        rfl
    have := Nat.ofDigits_digits 10 a
    rw [hdig] at this
    simp [Nat.ofDigits] at this
    exact ha this.symm
  · rw [if_neg ha, if_neg hb, List.reverse_inj] at h
    have hdig := map_digitChar_inj (fun x hx => mem_digits_lt hx)
      (fun x hx => mem_digits_lt hx) h
    calc a = Nat.ofDigits 10 (Nat.digits 10 a) := (Nat.ofDigits_digits 10 a).symm
    _ = Nat.ofDigits 10 (Nat.digits 10 b) := by rw [hdig]
    _ = b := Nat.ofDigits_digits 10 b

theorem natToDigits_isDigit {n : Nat} : ∀ c ∈ natToDigits n, c.isDigit = true := by
  intro c hc
  unfold natToDigits at hc
  by_cases hn : n = 0
  · rw [if_pos hn] at hc
    simp only [List.mem_singleton] at hc
    rw [hc]
    decide
  · rw [if_neg hn, List.mem_reverse] at hc
    obtain ⟨d, hd, rfl⟩ := List.mem_map.1 hc
    exact digitChar_isDigit ⟨d, mem_digits_lt hd⟩

theorem afterCalls_intros (g : PhraseGenerator) (n : Nat) :
    (g.afterCalls n).intros = g.intros := by
  induction n with
  | zero => rfl
  | succ k ih => rw [PhraseGenerator.afterCalls, PhraseGenerator.next, ih]

theorem afterCalls_claims (g : PhraseGenerator) (n : Nat) :
    (g.afterCalls n).claims = g.claims := by
  induction n with
  | zero => rfl
  | succ k ih => rw [PhraseGenerator.afterCalls, PhraseGenerator.next, ih]

theorem afterCalls_tag (g : PhraseGenerator) (n : Nat) :
    (g.afterCalls n).tag = g.tag := by
  induction n with
  | zero => rfl
  | succ k ih => rw [PhraseGenerator.afterCalls, PhraseGenerator.next, ih]

theorem afterCalls_counter (g : PhraseGenerator) (n : Nat) :
    (g.afterCalls n).counter = g.counter + n := by
  induction n with
  | zero => rfl
  | succ k ih =>
    rw [PhraseGenerator.afterCalls, PhraseGenerator.next, ih]
    rfl

theorem production_eq {g : PhraseGenerator} {n : Nat} (hcz : g.counter = 0)
    (hn : 1 ≤ n) :
    g.production n =
      g.intros.getD ((n - 1) % g.intros.length) [] ++ toPy " " ++
      g.claims.getD (((n - 1) / g.intros.length) % g.claims.length) [] ++ toPy " (" ++
      g.tag ++ toPy " #" ++ natToDigits n ++ toPy ")" := by
  unfold PhraseGenerator.production PhraseGenerator.next
  rw [afterCalls_counter, afterCalls_intros, afterCalls_claims, afterCalls_tag, hcz,
    Nat.zero_add, Nat.sub_add_cancel hn]

/-- C4: for a `PhraseGenerator` constructed with non-empty pools, the
`n`-th production (1-based) is `"<intro> <claim> (<tag> #<n>)"` where the
intro is `intros[(n-1) % len(intros)]` and the claim is
`claims[((n-1) / len(intros)) % len(claims)]`, and every call to `next`
advances the counter by exactly one.  The sequence is a pure function of
the construction, hence deterministic. -/
theorem C4_production_format (intros claims : List PyStr) (tag : PyStr) (n : Nat)
    (g : PhraseGenerator) (hi : intros ≠ []) (hc : claims ≠ []) (hn : 1 ≤ n) :
    (PhraseGenerator.mk intros claims tag 0).production n =
      intros.getD ((n - 1) % intros.length) [] ++ toPy " " ++
      claims.getD (((n - 1) / intros.length) % claims.length) [] ++ toPy " (" ++
      tag ++ toPy " #" ++ natToDigits n ++ toPy ")" ∧
    (g.next.2).counter = g.counter + 1 := by
  constructor
  · exact production_eq rfl hn
  · rfl

/-- C4 witness: the third production of a concrete generator. -/
theorem C4_witness :
    (PhraseGenerator.mk [toPy "a", toPy "b"] [toPy "c", toPy "d"] (toPy "t") 0).production 3 =
      [toPy "a", toPy "b"].getD ((3 - 1) % 2) [] ++ toPy " " ++
      [toPy "c", toPy "d"].getD (((3 - 1) / 2) % 2) [] ++ toPy " (" ++
      toPy "t" ++ toPy " #" ++ natToDigits 3 ++ toPy ")" ∧
    ((PhraseGenerator.mk [toPy "a"] [toPy "c"] (toPy "t") 5).next.2).counter = 5 + 1 :=
  C4_production_format [toPy "a", toPy "b"] [toPy "c", toPy "d"] (toPy "t") 3
    (PhraseGenerator.mk [toPy "a"] [toPy "c"] (toPy "t") 5)
    (by decide) (by decide) (by decide)

theorem takeWhile_all_append {p : Char → Bool} {A : PyStr} {b : Char} (C : PyStr)
    (hA : ∀ x ∈ A, p x = true) (hb : ¬ p b = true) :
    (A ++ b :: C).takeWhile p = A := by
  induction A with
  | nil => exact List.takeWhile_cons_of_neg hb
  | cons x xs ih =>
    rw [List.cons_append, List.takeWhile_cons_of_pos (hA x (List.mem_cons_self _ _)),
      ih (fun y hy => hA y (List.mem_cons_of_mem _ hy))]

theorem counterDigits_shape (q d : PyStr) (hd : ∀ c ∈ d, c.isDigit = true) :
    counterDigits (q ++ '#' :: (d ++ [ ')' ])) = d := by
  unfold counterDigits
  have hrev : (q ++ '#' :: (d ++ [ ')' ])).reverse =
      ')' :: (d.reverse ++ '#' :: q.reverse) := by
    simp
  rw [hrev, List.drop_one, List.tail_cons]
  rw [takeWhile_all_append q.reverse (fun x hx => hd x (List.mem_reverse.1 hx))
    (by decide)]
  exact List.reverse_reverse d

/-- Every production of a fresh generator ends in `"#<n>)"`. -/
theorem production_split {g : PhraseGenerator} {n : Nat} (hcz : g.counter = 0)
    (hn : 1 ≤ n) :
    ∃ q, g.production n = q ++ '#' :: (natToDigits n ++ [ ')' ]) := by
  rw [production_eq hcz hn]
  refine ⟨g.intros.getD ((n - 1) % g.intros.length) [] ++ toPy " " ++
      g.claims.getD (((n - 1) / g.intros.length) % g.claims.length) [] ++ toPy " (" ++
      g.tag ++ [ ' ' ], ?_⟩
  simp [toPy, List.append_assoc]

theorem counterDigits_production {g : PhraseGenerator} {n : Nat}
    (hcz : g.counter = 0) (hn : 1 ≤ n) :
    counterDigits (g.production n) = natToDigits n := by
  obtain ⟨q, hq⟩ := production_split hcz hn
  rw [hq]
  exact counterDigits_shape q (natToDigits n) (fun c hc => natToDigits_isDigit c hc)

/-- C5: for a fresh `PhraseGenerator` with non-empty pools, productions are
pairwise distinct (so any `N` consecutive productions form a set of size
`N`), and the `(intro, claim)` index pair determined by the counter does not
repeat within the first `len(intros) * len(claims)` productions. -/
theorem C5_no_repeats (g : PhraseGenerator) (hcz : g.counter = 0)
    (hi : g.intros ≠ []) (hc : g.claims ≠ []) :
    (∀ m n : Nat, 1 ≤ m → 1 ≤ n → m ≠ n → g.production m ≠ g.production n) ∧
    (∀ N : Nat, ((List.range N).map (fun i => g.production (i + 1))).Nodup) ∧
    (∀ i j : Nat, i < g.intros.length * g.claims.length →
      j < g.intros.length * g.claims.length →
      i % g.intros.length = j % g.intros.length →
      (i / g.intros.length) % g.claims.length = (j / g.intros.length) % g.claims.length →
      i = j) := by
  have hdistinct : ∀ m n : Nat, 1 ≤ m → 1 ≤ n → m ≠ n →
      g.production m ≠ g.production n := by
    intro m n hm hn hmn hcon
    have h1 := counterDigits_production hcz hm
    have h2 := counterDigits_production hcz hn
    rw [hcon] at h1
    rw [h2] at h1
    exact hmn (natToDigits_inj h1).symm
  refine ⟨hdistinct, ?_, ?_⟩
  · intro N
    have hrange : (List.range N).Pairwise (· ≠ ·) := (List.nodup_range N)
    exact List.Pairwise.map _ (fun a b hab =>
      hdistinct (a + 1) (b + 1) (by omega) (by omega) (by omega)) hrange
  · intro i j hi2 hj2 hmod hdiv
    have hI : 0 < g.intros.length := List.length_pos.2 hi
    have hdi : i / g.intros.length < g.claims.length := Nat.div_lt_of_lt_mul hi2
    have hdj : j / g.intros.length < g.claims.length := Nat.div_lt_of_lt_mul hj2
    rw [Nat.mod_eq_of_lt hdi, Nat.mod_eq_of_lt hdj] at hdiv
    have ei := Nat.div_add_mod i g.intros.length
    have ej := Nat.div_add_mod j g.intros.length
    rw [hdiv, hmod] at ei
    omega

/-- C5 witness: the first two productions of a concrete generator differ,
and index pairs 1 and 2 are distinguished. -/
theorem C5_witness :
    (PhraseGenerator.mk [toPy "a", toPy "b"] [toPy "c", toPy "d"] (toPy "t") 0).production 1 ≠
      (PhraseGenerator.mk [toPy "a", toPy "b"] [toPy "c", toPy "d"] (toPy "t") 0).production 2 :=
  (C5_no_repeats (PhraseGenerator.mk [toPy "a", toPy "b"] [toPy "c", toPy "d"] (toPy "t") 0)
    rfl (by decide) (by decide)).1 1 2 (by decide) (by decide) (by decide)

theorem countP_append (p : Ev → Bool) (a b : List Ev) :
    countP p (a ++ b) = countP p a + countP p b := by
  unfold countP
  rw [List.filter_append, List.length_append]

theorem head?_append_of_some {l y : PyStr} {c : Char} (h : l.head? = some c) :
    (l ++ y).head? = some c := by
  cases l
  · simp at h
  · simpa using h

theorem clear_append_ne_press (y : PyStr) : CLEAR_AND_HOME ++ y ≠ pressMsg := by
  intro h
  have h1 : (CLEAR_AND_HOME ++ y).head? = some '\x1b' :=
    head?_append_of_some (by decide)
  rw [h] at h1
  exact absurd h1 (by decide)

theorem pfx_clear (y : PyStr) : pfx CLEAR_AND_HOME (CLEAR_AND_HOME ++ y) = true :=
  (pfx_iff _ _).2 ⟨y, rfl⟩

theorem countP_loopBody_clear (frames : List PyStr) (index : Nat) :
    countP isClearWrite (loopBody frames index) = 1 := by
  unfold countP loopBody
  rw [show CLEAR_AND_HOME ++ frameAt frames index ++ [ '\n' ] =
    CLEAR_AND_HOME ++ (frameAt frames index ++ [ '\n' ]) from by rw [List.append_assoc]]
  simp [List.filter, isClearWrite, pfx_clear, show pfx CLEAR_AND_HOME pressMsg = false by decide]

theorem countP_loopBody_press (frames : List PyStr) (index : Nat) :
    countP isPressWrite (loopBody frames index) = 1 := by
  unfold countP loopBody
  have hne : ((CLEAR_AND_HOME ++ (frameAt frames index ++ [ '\n' ])) == pressMsg) = false := by
    rw [beq_eq_false_iff_ne]
    exact clear_append_ne_press _
  simp [List.filter, isPressWrite, hne]

theorem countP_loopBody_sleep (frames : List PyStr) (index : Nat) :
    countP isSleep (loopBody frames index) = 1 := by
  unfold countP loopBody
  simp [List.filter, isSleep]

theorem frameAt_mem {frames : List PyStr} (h : frames ≠ []) (index : Nat) :
    frameAt frames index ∈ frames := by
  unfold frameAt
  have hlen : 0 < frames.length := List.length_pos.2 h
  have hlt : index % frames.length < frames.length := Nat.mod_lt _ hlen
  rw [List.getD_eq_getElem _ _ hlt]
  exact List.getElem_mem _

theorem countP_loopBody_goodbye (frames : List PyStr) (index : Nat)
    (hne : frames ≠ []) (hf : ∀ f ∈ frames, f ≠ stoppedLine) :
    countP isGoodbyeWrite (loopBody frames index) = 0 := by
  have hframe : frameAt frames index ≠ stoppedLine := hf _ (frameAt_mem hne index)
  have h1 : ((CLEAR_AND_HOME ++ (frameAt frames index ++ [ '\n' ])) == goodbyeMsg) = false := by
    rw [beq_eq_false_iff_ne]
    intro hcon
    unfold goodbyeMsg at hcon
    rw [List.append_assoc] at hcon
    have h2 := List.append_cancel_left hcon
    exact hframe (List.append_cancel_right h2)
  have h2 : (pressMsg == goodbyeMsg) = false := by decide
  unfold countP loopBody
  simp [List.filter, isGoodbyeWrite, h1, h2]

/-- Event counts over the capped loop: each pass contributes a fixed count,
and the loop runs `max(iterations, 1)` times — the cap is only checked
after a full pass. -/
theorem countP_animateFrom {p : Ev → Bool} {c : Nat} (frames : List PyStr) (n : Int)
    (hc : ∀ i, countP p (loopBody frames i) = c) :
    ∀ index : Nat, countP p (animateFrom frames n index) =
      c * max ((n - (index : Int)).toNat) 1 := by
  have H : ∀ k index : Nat, (n - (index : Int)).toNat = k →
      countP p (animateFrom frames n index) = c * max ((n - (index : Int)).toNat) 1 := by
    intro k
    induction k using Nat.strong_induction_on with
    | _ k ih =>
      intro index hk
      rw [animateFrom]
      by_cases hstop : (index : Int) + 1 ≥ n
      · rw [dif_pos hstop, List.append_nil, hc]
        have hmax : max ((n - (index : Int)).toNat) 1 = 1 := by omega
        rw [hmax, Nat.mul_one]
      · rw [dif_neg hstop, countP_append, hc]
        have hk2 : 2 ≤ k := by omega
        have hk1 : (n - ((index + 1 : Nat) : Int)).toNat = k - 1 := by
          push_cast
          omega
        rw [ih (k - 1) (by omega) (index + 1) hk1]
        have h2 : max ((n - ((index + 1 : Nat) : Int)).toNat) 1 = k - 1 := by
          push_cast
          omega
        have h3 : max ((n - (index : Int)).toNat) 1 = k := by omega
        rw [h2, h3]
        obtain ⟨k', rfl⟩ : ∃ k', k = k' + 1 := ⟨k - 1, by omega⟩
        simp only [Nat.add_sub_cancel]
        rw [Nat.mul_succ]
        omega
  intro index
  exact H _ index rfl

/-- C6: for a Spinner with `k ≥ 1` frames, `animate` with `iterations = k`,
a recording writer and a non-raising sleep function writes the
clear-screen-and-home escape sequence exactly `k` times and the
instructional line at least once, then returns (the trace is finite). -/
theorem C6_animate_counts (frames : List PyStr) (k : Nat) (hk : frames.length = k)
    (h1 : 1 ≤ k) :
    countP isClearWrite (animate frames (k : Int)) = k ∧
    1 ≤ countP isPressWrite (animate frames (k : Int)) := by
  have hne : ¬ frames.isEmpty = true := by
    rw [List.isEmpty_iff]
    intro hcon
    rw [hcon] at hk
    simp at hk
    omega
  unfold animate
  rw [if_neg hne]
  have hmax : max (((k : Int) - ((0 : Nat) : Int)).toNat) 1 = k := by omega
  constructor
  · rw [countP_animateFrom frames _ (countP_loopBody_clear frames) 0, hmax, Nat.one_mul]
  · rw [countP_animateFrom frames _ (countP_loopBody_press frames) 0, hmax, Nat.one_mul]
    omega

/-- C6 witness: a concrete two-frame Spinner animated for two iterations. -/
theorem C6_witness :
    countP isClearWrite (animate [toPy "x", toPy "y"] ((2 : Nat) : Int)) = 2 ∧
    1 ≤ countP isPressWrite (animate [toPy "x", toPy "y"] ((2 : Nat) : Int)) :=
  C6_animate_counts [toPy "x", toPy "y"] 2 (by decide) (by decide)

/-- C10: with a non-positive iteration cap, `animate` still runs one full
pass — one clear-and-frame write, one instructional write, and exactly one
sleep call — because the cap is checked only after the frame has been
written and the sleep has happened. -/
theorem C10_nonpositive_cap (frames : List PyStr) (n : Int) (hne : frames ≠ [])
    (hn : n ≤ 0) :
    animate frames n = loopBody frames 0 ∧
    countP isClearWrite (animate frames n) = 1 ∧
    countP isPressWrite (animate frames n) = 1 ∧
    countP isSleep (animate frames n) = 1 := by
  have hEmpty : ¬ frames.isEmpty = true := by
    rw [List.isEmpty_iff]
    exact hne
  have htrace : animate frames n = loopBody frames 0 := by
    unfold animate
    rw [if_neg hEmpty, animateFrom, dif_pos (by omega : (((0 : Nat) : Int) + 1 ≥ n)),
      List.append_nil]
  refine ⟨htrace, ?_, ?_, ?_⟩ <;> rw [htrace]
  · exact countP_loopBody_clear frames 0
  · exact countP_loopBody_press frames 0
  · exact countP_loopBody_sleep frames 0

/-- C10 witness: a one-frame Spinner with `iterations = 0`. -/
theorem C10_witness :
    animate [toPy "x"] 0 = loopBody [toPy "x"] 0 ∧
    countP isClearWrite (animate [toPy "x"] 0) = 1 ∧
    countP isPressWrite (animate [toPy "x"] 0) = 1 ∧
    countP isSleep (animate [toPy "x"] 0) = 1 :=
  C10_nonpositive_cap [toPy "x"] 0 (by decide) (by decide)

/-- C7 counterexample: with the cap `iterations = 0`, the sleep primitive is
called once — more than the requested cap — because the loop body sleeps
before the cap test runs. -/
theorem C7_counterexample :
    countP isSleep (animate [toPy "x"] 0) = 1 ∧
    ¬ countP isSleep (animate [toPy "x"] 0) ≤ 0 := by
  have htrace : animate [toPy "x"] 0 = loopBody [toPy "x"] 0 := by
    unfold animate
    rw [if_neg (by decide), animateFrom,
      dif_pos (by decide : (((0 : Nat) : Int) + 1 ≥ (0 : Int))), List.append_nil]
  rw [htrace]
  constructor
  · decide
  · decide

/-- C7 (amended): `animate` with a non-raising sleep function calls the
sleep primitive exactly `max(iterations, 1)` times; in particular it never
exceeds the cap when the cap is at least 1, but a cap of `n ≤ 0` still
incurs one call. -/
theorem C7_amended_sleep_count (frames : List PyStr) (n : Int) (hne : frames ≠ []) :
    countP isSleep (animate frames n) = (max n 1).toNat := by
  have hEmpty : ¬ frames.isEmpty = true := by
    rw [List.isEmpty_iff]
    exact hne
  unfold animate
  rw [if_neg hEmpty, countP_animateFrom frames _ (countP_loopBody_sleep frames) 0,
    Nat.one_mul]
  omega

/-- C7 amended witness: three sleeps for a cap of 3. -/
theorem C7_amended_witness :
    countP isSleep (animate [toPy "x"] 3) = ((max 3 1 : Int)).toNat :=
  C7_amended_sleep_count [toPy "x"] 3 (by decide)

theorem countP_goodbye_single : countP isGoodbyeWrite [Ev.write goodbyeMsg] = 1 := by
  unfold countP
  simp [List.filter, isGoodbyeWrite]

theorem animateIntrFrom_ne_nil (frames : List PyStr) (n? : Option Int) (index j : Nat) :
    animateIntrFrom frames n? index j ≠ [] := by
  cases j <;> simp [animateIntrFrom, loopBody]

/-- Where the interrupt is actually reached, the interrupted loop writes the
clear-and-goodbye message exactly once, as its final action. -/
theorem animateIntrFrom_goodbye (frames : List PyStr) (n? : Option Int)
    (hne : frames ≠ []) (hf : ∀ f ∈ frames, f ≠ stoppedLine) :
    ∀ j index : Nat, (∀ n, n? = some n → (j : Int) < max (n - (index : Int)) 1) →
      countP isGoodbyeWrite (animateIntrFrom frames n? index j) = 1 ∧
      (animateIntrFrom frames n? index j).getLast? = some (Ev.write goodbyeMsg) := by
  intro j
  induction j with
  | zero =>
    intro index _
    rw [show animateIntrFrom frames n? index 0 =
      loopBody frames index ++ [Ev.write goodbyeMsg] from rfl]
    constructor
    · rw [countP_append, countP_loopBody_goodbye frames index hne hf,
        countP_goodbye_single]
    · rw [List.getLast?_append_of_ne_nil _ (by simp)]
      rfl
  | succ j ih =>
    intro index hcond
    rcases n? with _ | n
    · rw [show animateIntrFrom frames none index (j + 1) =
        loopBody frames index ++ animateIntrFrom frames none (index + 1) j from rfl]
      have ihh := ih (index + 1) (by intro n hn; exact absurd hn (by simp))
      constructor
      · rw [countP_append, countP_loopBody_goodbye frames index hne hf, ihh.1]
      · rw [List.getLast?_append_of_ne_nil _ (animateIntrFrom_ne_nil frames none (index + 1) j)]
        exact ihh.2
    · have hj := hcond n rfl
      have hlt : ¬ ((index : Int) + 1 ≥ n) := by omega
      rw [show animateIntrFrom frames (some n) index (j + 1) =
        loopBody frames index ++
          (if (index : Int) + 1 ≥ n then []
           else animateIntrFrom frames (some n) (index + 1) j) from rfl]
      rw [if_neg hlt]
      have ihh := ih (index + 1) (by
        intro m hm
        injection hm with hm
        subst hm
        push_cast
        omega)
      constructor
      · rw [countP_append, countP_loopBody_goodbye frames index hne hf, ihh.1]
      · rw [List.getLast?_append_of_ne_nil _
          (animateIntrFrom_ne_nil frames (some n) (index + 1) j)]
        exact ihh.2

/-- C8: when a KeyboardInterrupt is raised inside `animate`'s loop by the
injected sleep function (its `j`-th call, before any cap would end the
loop), `animate` catches it, writes the clear-screen-and-home sequence
followed by the goodbye message exactly once as its last action, and
returns normally — the trace is the function's value, so the interrupt is
not re-raised.  The goodbye count requires that no frame equals the goodbye
text itself, which distinguishes the handler's write from frame writes. -/
theorem C8_interrupt_goodbye (frames : List PyStr) (n? : Option Int) (j : Nat)
    (hne : frames ≠ []) (hf : ∀ f ∈ frames, f ≠ stoppedLine)
    (hj : ∀ n, n? = some n → (j : Int) < max n 1) :
    countP isGoodbyeWrite (animateIntr frames n? j) = 1 ∧
    (animateIntr frames n? j).getLast? = some (Ev.write goodbyeMsg) := by
  have hEmpty : ¬ frames.isEmpty = true := by
    rw [List.isEmpty_iff]
    exact hne
  unfold animateIntr
  rw [if_neg hEmpty]
  refine animateIntrFrom_goodbye frames n? hne hf j 0 ?_
  intro n hn
  have := hj n hn
  omega

/-- C8 witness: an unbounded animation interrupted at the second sleep. -/
theorem C8_witness :
    countP isGoodbyeWrite (animateIntr [toPy "x"] none 1) = 1 ∧
    (animateIntr [toPy "x"] none 1).getLast? = some (Ev.write goodbyeMsg) :=
  C8_interrupt_goodbye [toPy "x"] none 1 (by decide) (by decide)
    (fun n hn => absurd hn (by simp))

/-- C9: all construction and parse validation is a synchronous result of the
call itself: `Spinner.init` errors exactly on an empty frame sequence,
`PhraseGenerator.init` errors exactly when either word pool is empty, and
`parse_choice` maps a trimmed, lowercased `"chip"`/`"c"` to `"chip"`, a
trimmed, lowercased `"cockroach"`/`"roach"`/`"r"` to `"cockroach"`, and
errors on every other input. -/
theorem C9_validation (frames intros claims : List PyStr) (tag : PyStr) (v : PyStr) :
    (isErrE (Spinner.init frames) = true ↔ frames = []) ∧
    (isErrE (PhraseGenerator.init intros claims tag) = true ↔
      (intros = [] ∨ claims = [])) ∧
    (parse_choice v = Except.ok (toPy "chip") ↔
      (pyLower (pyStrip v) = toPy "chip" ∨ pyLower (pyStrip v) = toPy "c")) ∧
    (parse_choice v = Except.ok (toPy "cockroach") ↔
      (pyLower (pyStrip v) = toPy "cockroach" ∨ pyLower (pyStrip v) = toPy "roach" ∨
        pyLower (pyStrip v) = toPy "r")) ∧
    (isErrE (parse_choice v) = true ↔
      ¬ (pyLower (pyStrip v) = toPy "chip" ∨ pyLower (pyStrip v) = toPy "c" ∨
        pyLower (pyStrip v) = toPy "cockroach" ∨ pyLower (pyStrip v) = toPy "roach" ∨
        pyLower (pyStrip v) = toPy "r")) := by
  refine ⟨?_, ?_, ?_, ?_, ?_⟩
  · unfold Spinner.init
    by_cases h : frames.isEmpty = true
    · rw [if_pos h]
      simp [isErrE, List.isEmpty_iff.1 h]
    · rw [if_neg h]
      rw [List.isEmpty_iff] at h
      simp [isErrE, h]
  · unfold PhraseGenerator.init
    by_cases h : (intros.isEmpty || claims.isEmpty) = true
    · rw [if_pos h]
      rw [Bool.or_eq_true, List.isEmpty_iff, List.isEmpty_iff] at h
      simp [isErrE, h]
    · rw [if_neg h]
      rw [Bool.or_eq_true, List.isEmpty_iff, List.isEmpty_iff] at h
      push_neg at h
      simp [isErrE, h.1, h.2]
  · unfold parse_choice
    by_cases h1 : pyLower (pyStrip v) = toPy "chip" ∨ pyLower (pyStrip v) = toPy "c"
    · rw [if_pos h1]
      simp [h1]
    · rw [if_neg h1]
      by_cases h2 : pyLower (pyStrip v) = toPy "cockroach" ∨
          pyLower (pyStrip v) = toPy "roach" ∨ pyLower (pyStrip v) = toPy "r"
      · rw [if_pos h2]
        simp only [Except.ok.injEq]
        constructor
        · intro hco
          exact absurd (congrArg (fun s => s) hco) (by decide)
        · intro hco
          exact absurd hco h1
      · rw [if_neg h2]
        simp [h1]
  · unfold parse_choice
    by_cases h1 : pyLower (pyStrip v) = toPy "chip" ∨ pyLower (pyStrip v) = toPy "c"
    · rw [if_pos h1]
      simp only [Except.ok.injEq]
      constructor
      · intro hco
        exact absurd (congrArg (fun s => s) hco) (by decide)
      · intro hco
        rcases h1 with h1 | h1 <;> rcases hco with hco | hco | hco <;>
          rw [h1] at hco <;> exact absurd hco (by decide)
    · rw [if_neg h1]
      by_cases h2 : pyLower (pyStrip v) = toPy "cockroach" ∨
          pyLower (pyStrip v) = toPy "roach" ∨ pyLower (pyStrip v) = toPy "r"
      · rw [if_pos h2]
        simp [h2]
      · rw [if_neg h2]
        simp [h2]
  · unfold parse_choice
    by_cases h1 : pyLower (pyStrip v) = toPy "chip" ∨ pyLower (pyStrip v) = toPy "c"
    · rw [if_pos h1]
      simp [isErrE]
      tauto
    · rw [if_neg h1]
      by_cases h2 : pyLower (pyStrip v) = toPy "cockroach" ∨
          pyLower (pyStrip v) = toPy "roach" ∨ pyLower (pyStrip v) = toPy "r"
      · rw [if_pos h2]
        simp [isErrE]
        tauto
      · rw [if_neg h2]
        simp [isErrE]
        tauto
